import Mathlib

/-!
# Verification of `otel-tracetest-printer` (`printer.go`)

A shallow embedding of the repository's span-tree printer:

* the forest builder of `PrintSpanTree` (span maps, root detection, sibling
  sorting via Go's `sort.Slice`),
* the recursive renderer `buildSpanBox` together with the parts of the
  `lipgloss` layout engine it relies on (vertical joining with right padding,
  rounded-border boxes with one cell of horizontal padding),
* the helpers `joinLabelValue`, `formatTime`, `indentAllLines`,
  `isErrorAttribute`, and Go's `time.Duration.String`.

Modelling conventions:

* Machine integers (`int64` nanoseconds, ids) are modelled as `Int`/`Nat`;
  none of the verified properties depend on wrap-around.
* `trace.SpanID` (8 bytes) and `trace.TraceID` (16 bytes) are modelled as the
  natural number formed by their bytes; `IsValid` is "not all zero bytes",
  i.e. `≠ 0`, and `String()` is the fixed-width lowercase hex encoding.
* Text styles (`lipgloss.NewStyle().Foreground(...)` etc.) are modelled in the
  ASCII color profile - the profile termenv selects for a non-terminal sink
  such as the test's `bytes.Buffer` - in which `Style.Render` adds no escape
  sequences.  The structural parts of the styles (`Margin(0)`, `PaddingLeft(1)`,
  `PaddingRight(1)`, rounded border) are modelled exactly.
* Display width (`lipgloss.Width`) is modelled as the number of runes; all
  characters produced by the printer are single-cell.
* Go's `sort.Slice` is the pattern-defeating quicksort of Go's `sort` package
  (`pdqsort`, Go ≥ 1.19).  Its loops are given explicit fuel and return
  `none` when the fuel runs out, so a `some` result certifies a completed run
  of the Go algorithm.  The fuel chosen at each call site exceeds the loop's
  iteration bound, hence real executions never exhaust it.
* `buildSpanBox` recurses through the children map with no termination
  guard in Go; the embedding makes the recursion depth explicit fuel
  (`none` = the Go program would still be recursing past that depth).
-/

namespace OtelPrinter

/-! ## Positional list access (Go slice indexing) -/

/-- Go slice read `l[i]`; all actual accesses are in bounds. -/
def lget [Inhabited α] (l : List α) (i : Nat) : α := l.getD i default

/-- Go slice write `l[i] = a` (out of range: unchanged; never happens in runs). -/
def lset (l : List α) (i : Nat) (a : α) : List α := l.set i a

/-- Go `data.Swap(i, j)` realised with two reads and two writes.  Go panics
on an out-of-range index and the sort never goes out of range; the guard
makes the out-of-range case (unreachable in real executions) a no-op, so a
swap is always a permutation. -/
def lswap [Inhabited α] (l : List α) (i j : Nat) : List α :=
  if i < l.length ∧ j < l.length then lset (lset l i (lget l j)) j (lget l i) else l

/-- `Option`-valued map over a list (children loop of `buildSpanBox`). -/
def mapMOpt (f : α → Option β) : List α → Option (List β)
  | [] => some []
  | a :: as => do
    let b ← f a
    let bs ← mapMOpt f as
    some (b :: bs)

/-! ## Go's `sort.Slice`: pdqsort from the `sort` package

Transcribed function by function from Go's `sort` package (the `*_func`
variants used by `sort.Slice`):  `insertionSort`, `siftDown`, `heapSort`,
`reverseRange`, `xorshift`, `nextPowerOfTwo`, `breakPatterns`, `order2`,
`median`, `medianAdjacent`, `choosePivot`, `partialInsertionSort`,
`partition`, `partitionEqual`, `pdqsort`.  Each Go loop is a fuel-indexed
recursion returning `none` on fuel exhaustion. -/

section GoSort

variable {α : Type} [Inhabited α] (less : α → α → Bool)

/-- `data.Less(i, j)` on the current slice contents. -/
def lessAt (l : List α) (i j : Nat) : Bool := less (lget l i) (lget l j)

/-- Inner loop of Go `insertionSort`:
`for j := i; j > a && data.Less(j, j-1); j-- { data.Swap(j, j-1) }`. -/
def insertionInner : Nat → List α → Nat → Nat → Option (List α)
  | 0, _, _, _ => none
  | fuel + 1, l, j, a =>
    if j > a ∧ lessAt less l j (j - 1) then
      insertionInner fuel (lswap l j (j - 1)) (j - 1) a
    else some l

/-- Outer loop of Go `insertionSort`: `for i := a + 1; i < b; i++`. -/
def insertionOuter : Nat → List α → Nat → Nat → Nat → Option (List α)
  | 0, _, _, _, _ => none
  | fuel + 1, l, i, a, b =>
    if i < b then do
      let l ← insertionInner less (i + 1) l i a
      insertionOuter fuel l (i + 1) a b
    else some l

/-- Go `insertionSort(data, a, b)`: sorts `data[a:b]`. -/
def insertionSortGo (l : List α) (a b : Nat) : Option (List α) :=
  insertionOuter less (b + 1) l (a + 1) a b

/-- Go `siftDown(data, lo, hi, first)`. -/
def siftDownGo : Nat → List α → Nat → Nat → Nat → Option (List α)
  | 0, _, _, _, _ => none
  | fuel + 1, l, root, hi, first =>
    let child := 2 * root + 1
    if child ≥ hi then some l
    else
      let child :=
        if child + 1 < hi ∧ lessAt less l (first + child) (first + child + 1) then
          child + 1
        else child
      if ¬ lessAt less l (first + root) (first + child) then some l
      else siftDownGo fuel (lswap l (first + root) (first + child)) child hi first

/-- Heap construction of Go `heapSort`:
`for i := (hi - 1) / 2; i >= 0; i--` (the counter is `i + 1`). -/
def heapBuild : Nat → List α → Nat → Nat → Option (List α)
  | 0, l, _, _ => some l
  | cnt + 1, l, hi, first => do
    let l ← siftDownGo less (hi + 1) l cnt hi first
    heapBuild cnt l hi first

/-- Pop phase of Go `heapSort`:
`for i := hi - 1; i >= 0; i-- { data.Swap(first, first+i); siftDown(data, lo, i, first) }`. -/
def heapPop : Nat → List α → Nat → Option (List α)
  | 0, l, _ => some l
  | cnt + 1, l, first => do
    let l ← siftDownGo less (cnt + 1) (lswap l first (first + cnt)) 0 cnt first
    heapPop cnt l first

/-- Go `heapSort(data, a, b)`. -/
def heapSortGo (l : List α) (a b : Nat) : Option (List α) := do
  let hi := b - a
  let l ← heapBuild less ((hi - 1) / 2 + 1) l hi a
  heapPop less hi l a

/-- Loop of Go `reverseRange`: `for i < j { swap; i++; j-- }`. -/
def revLoop : Nat → List α → Nat → Nat → Option (List α)
  | 0, _, _, _ => none
  | fuel + 1, l, i, j =>
    if i < j then revLoop fuel (lswap l i j) (i + 1) (j - 1) else some l

/-- Go `reverseRange(data, a, b)`: `i := a; j := b - 1`. -/
def reverseRangeGo (l : List α) (a b : Nat) : Option (List α) :=
  revLoop (b + 1) l a (b - 1)

/-- One step of Go's `xorshift` pseudo-random generator (uint64). -/
def xorshiftNext (x : Nat) : Nat :=
  let m := 2 ^ 64
  let x := (x ^^^ (x <<< 13)) % m
  let x := x ^^^ (x >>> 7)
  (x ^^^ (x <<< 17)) % m

/-- Number of bits of `n` (Go `bits.Len`), with structural fuel
(`fuel ≥ n` always suffices since the argument halves). -/
def bitsLenF : Nat → Nat → Nat
  | _, 0 => 0
  | 0, _ + 1 => 0
  | fuel + 1, n + 1 => bitsLenF fuel ((n + 1) / 2) + 1

/-- Number of bits of `n` (Go `bits.Len`). -/
def bitsLen (n : Nat) : Nat := bitsLenF n n

/-- Go `nextPowerOfTwo(length)`. -/
def nextPowerOfTwo (length : Nat) : Nat := 1 <<< bitsLen length

/-- Go `breakPatterns(data, a, b)`: three pseudo-random swaps when the
range has at least 8 elements. -/
def breakPatternsGo (l : List α) (a b : Nat) : List α :=
  let length := b - a
  if length ≥ 8 then
    let modulus := nextPowerOfTwo length
    let idx := a + (length / 4) * 2 - 1
    let step := fun (st : List α × Nat) (i : Nat) =>
      let rand := xorshiftNext st.2
      let other := rand &&& (modulus - 1)
      let other := if other ≥ length then other - length else other
      (lswap st.1 (idx - 1 + i) (a + other), rand)
    let st1 := step (l, length) 0
    let st2 := step st1 1
    (step st2 2).1
  else l

/-- Hints returned by Go `choosePivot`. -/
inductive SortedHint where
  | increasing
  | decreasing
  | unknown
deriving DecidableEq

/-- Go `order2(data, a, b, &swaps)`. -/
def order2Go (l : List α) (a b swaps : Nat) : Nat × Nat × Nat :=
  if lessAt less l b a then (b, a, swaps + 1) else (a, b, swaps)

/-- Go `median(data, a, b, c, &swaps)`. -/
def medianGo (l : List α) (a b c swaps : Nat) : Nat × Nat :=
  let (a, b, swaps) := order2Go less l a b swaps
  let (b, _, swaps) := order2Go less l b c swaps
  let (_, b, swaps) := order2Go less l a b swaps
  (b, swaps)

/-- Go `medianAdjacent(data, a, &swaps)`. -/
def medianAdjacentGo (l : List α) (a swaps : Nat) : Nat × Nat :=
  medianGo less l (a - 1) a (a + 1) swaps

/-- Go `choosePivot(data, a, b)`. -/
def choosePivotGo (l : List α) (a b : Nat) : Nat × SortedHint :=
  let length := b - a
  let i := a + length / 4 * 1
  let j := a + length / 4 * 2
  let k := a + length / 4 * 3
  let (j, swaps) :=
    if length ≥ 8 then
      let (i, j, k, swaps) :=
        if length ≥ 50 then
          let (i, s1) := medianAdjacentGo less l i 0
          let (j, s2) := medianAdjacentGo less l j s1
          let (k, s3) := medianAdjacentGo less l k s2
          (i, j, k, s3)
        else (i, j, k, 0)
      medianGo less l i j k swaps
    else (j, 0)
  (j, if swaps = 0 then .increasing
      else if swaps = 12 then .decreasing
      else .unknown)

/-- Scan `for i < b && !data.Less(i, i-1) { i++ }` of Go `partialInsertionSort`. -/
def pisAdvance : Nat → List α → Nat → Nat → Option Nat
  | 0, _, _, _ => none
  | fuel + 1, l, i, b =>
    if i < b ∧ ¬ lessAt less l i (i - 1) then pisAdvance fuel l (i + 1) b
    else some i

/-- Left shift loop of Go `partialInsertionSort`:
`for j := i - 1; j >= 1; j-- { if !data.Less(j, j-1) { break }; data.Swap(j, j-1) }`. -/
def pisShiftLeft : Nat → List α → Nat → Option (List α)
  | 0, _, _ => none
  | fuel + 1, l, j =>
    if j ≥ 1 ∧ lessAt less l j (j - 1) then
      pisShiftLeft fuel (lswap l j (j - 1)) (j - 1)
    else some l

/-- Right shift loop of Go `partialInsertionSort`:
`for j := i + 1; j < b; j++ { if !data.Less(j, j-1) { break }; data.Swap(j, j-1) }`. -/
def pisShiftRight : Nat → List α → Nat → Nat → Option (List α)
  | 0, _, _, _ => none
  | fuel + 1, l, j, b =>
    if j < b ∧ lessAt less l j (j - 1) then
      pisShiftRight fuel (lswap l j (j - 1)) (j + 1) b
    else some l

/-- Outer loop of Go `partialInsertionSort` (at most `maxSteps = 5` rounds). -/
def pisLoop : Nat → List α → Nat → Nat → Nat → Option (List α × Bool)
  | 0, l, _, _, _ => some (l, false)
  | steps + 1, l, i, a, b => do
    let i ← pisAdvance less (b + 1) l i b
    if i = b then some (l, true)
    else if b - a < 50 then some (l, false)
    else do
      let l := lswap l i (i - 1)
      let l ← if i - a ≥ 2 then pisShiftLeft less (i + 1) l (i - 1) else some l
      let l ← if b - i ≥ 2 then pisShiftRight less (b + 1) l (i + 1) b else some l
      pisLoop steps l i a b

/-- Go `partialInsertionSort(data, a, b)`: partially sorts, reporting whether
the range ended up sorted. -/
def partialInsertionSortGo (l : List α) (a b : Nat) : Option (List α × Bool) :=
  pisLoop less 5 l (a + 1) a b

/-- Scan `for i <= j && data.Less(i, a) { i++ }` of Go `partition`. -/
def partAdvI : Nat → List α → Nat → Nat → Nat → Option Nat
  | 0, _, _, _, _ => none
  | fuel + 1, l, a, i, j =>
    if i ≤ j ∧ lessAt less l i a then partAdvI fuel l a (i + 1) j else some i

/-- Scan `for i <= j && !data.Less(j, a) { j-- }` of Go `partition`. -/
def partAdvJ : Nat → List α → Nat → Nat → Nat → Option Nat
  | 0, _, _, _, _ => none
  | fuel + 1, l, a, i, j =>
    if i ≤ j ∧ ¬ lessAt less l j a then partAdvJ fuel l a i (j - 1) else some j

/-- Main loop of Go `partition` after the first swap round. -/
def partitionLoop : Nat → List α → Nat → Nat → Nat → Option (List α × Nat × Bool)
  | 0, _, _, _, _ => none
  | fuel + 1, l, a, i, j => do
    let i ← partAdvI less (j + 2) l a i j
    let j ← partAdvJ less (j + 2) l a i j
    if i > j then some (lswap l j a, j, false)
    else partitionLoop fuel (lswap l i j) a (i + 1) (j - 1)

/-- Go `partition(data, a, b, pivot)`: returns the final state, the new pivot
position, and whether the range was already partitioned. -/
def partitionGo (l : List α) (a b pivot : Nat) : Option (List α × Nat × Bool) := do
  let l := lswap l a pivot
  let i ← partAdvI less (b + 2) l a (a + 1) (b - 1)
  let j ← partAdvJ less (b + 2) l a i (b - 1)
  if i > j then some (lswap l j a, j, true)
  else partitionLoop less (b + 2) (lswap l i j) a (i + 1) (j - 1)

/-- Scan `for i <= j && !data.Less(a, i) { i++ }` of Go `partitionEqual`. -/
def partEqAdvI : Nat → List α → Nat → Nat → Nat → Option Nat
  | 0, _, _, _, _ => none
  | fuel + 1, l, a, i, j =>
    if i ≤ j ∧ ¬ lessAt less l a i then partEqAdvI fuel l a (i + 1) j else some i

/-- Scan `for i <= j && data.Less(a, j) { j-- }` of Go `partitionEqual`. -/
def partEqAdvJ : Nat → List α → Nat → Nat → Nat → Option Nat
  | 0, _, _, _, _ => none
  | fuel + 1, l, a, i, j =>
    if i ≤ j ∧ lessAt less l a j then partEqAdvJ fuel l a i (j - 1) else some j

/-- Main loop of Go `partitionEqual`. -/
def partitionEqualLoop : Nat → List α → Nat → Nat → Nat → Option (List α × Nat)
  | 0, _, _, _, _ => none
  | fuel + 1, l, a, i, j => do
    let i ← partEqAdvI less (j + 2) l a i j
    let j ← partEqAdvJ less (j + 2) l a i j
    if i > j then some (l, i)
    else partitionEqualLoop fuel (lswap l i j) a (i + 1) (j - 1)

/-- Go `partitionEqual(data, a, b, pivot)`: groups elements equal to the pivot
at the front, returning the first index past them. -/
def partitionEqualGo (l : List α) (a b pivot : Nat) : Option (List α × Nat) :=
  partitionEqualLoop less (b + 2) (lswap l a pivot) a (a + 1) (b - 1)

/-- Go `pdqsort(data, a, b, limit)`.  The fuel dominates the length of any
chain of loop iterations and recursive calls, each of which strictly shrinks
the slice in real executions.  Go's
`if !wasBalanced { breakPatterns(data, a, b); limit-- }` is rendered as the
two lets `l1`/`limit1`. -/
def pdqsortGo : Nat → List α → Nat → Nat → Nat → Bool → Bool → Option (List α)
  | 0, _, _, _, _, _, _ => none
  | fuel + 1, l, a, b, limit, wasBalanced, wasPartitioned =>
    let length := b - a
    if length ≤ 12 then insertionSortGo less l a b
    else if limit = 0 then heapSortGo less l a b
    else
      let l1 := if wasBalanced then l else breakPatternsGo l a b
      let limit1 := if wasBalanced then limit else limit - 1
      let cp := choosePivotGo less l1 a b
      let st : Option (List α × Nat × SortedHint) :=
        if cp.2 = SortedHint.decreasing then
          Option.bind (reverseRangeGo l1 a b) (fun l2 =>
            some (l2, (b - 1) - (cp.1 - a), SortedHint.increasing))
        else some (l1, cp.1, cp.2)
      match st with
      | none => none
      | some (l2, pivot, hint) =>
        let st2 : Option (List α × Bool) :=
          if wasBalanced ∧ wasPartitioned ∧ hint = SortedHint.increasing then
            partialInsertionSortGo less l2 a b
          else some (l2, false)
        match st2 with
        | none => none
        | some (l3, sorted) =>
          if sorted then some l3
          else if a > 0 ∧ ¬ lessAt less l3 (a - 1) pivot then
            match partitionEqualGo less l3 a b pivot with
            | none => none
            | some (l4, mid) =>
              pdqsortGo fuel l4 mid b limit1 wasBalanced wasPartitioned
          else
            match partitionGo less l3 a b pivot with
            | none => none
            | some (l4, mid, alreadyPartitioned) =>
              let leftLen := mid - a
              let rightLen := b - mid
              let balanceThreshold := length / 8
              let newBalanced := decide (min leftLen rightLen ≥ balanceThreshold)
              if leftLen < rightLen then
                Option.bind (pdqsortGo fuel l4 a mid limit1 true true) (fun l5 =>
                  pdqsortGo fuel l5 (mid + 1) b limit1 newBalanced alreadyPartitioned)
              else
                Option.bind (pdqsortGo fuel l4 (mid + 1) b limit1 true true) (fun l5 =>
                  pdqsortGo fuel l5 a mid limit1 newBalanced alreadyPartitioned)

/-- Go `sort.Slice(x, less)`: `pdqsort(lessSwap, 0, length, bits.Len(length))`. -/
def sortSliceGo (l : List α) : Option (List α) :=
  pdqsortGo less (l.length + 2) l 0 l.length (bitsLen l.length) true true

end GoSort

/-! ## Identifiers, timestamps, durations

`trace.SpanID` / `trace.TraceID` are byte arrays rendered by
`hex.EncodeToString`; we model them as the natural number formed by the bytes
and render a fixed-width lowercase hex string.  `time.Time` is modelled as
UTC unix nanoseconds (an unbounded `Int`; the printer does no arithmetic that
could overflow `int64` on realistic inputs). -/

/-- Decimal digit character. -/
def digitChar (d : Nat) : Char := Char.ofNat (48 + d)

/-- Lowercase hex digit character. -/
def hexChar (d : Nat) : Char :=
  if d < 10 then Char.ofNat (48 + d) else Char.ofNat (87 + d)

/-- Fixed-width lowercase hex encoding, most significant digit first
(`hex.EncodeToString` of the id's bytes). -/
def hexPad : Nat → Nat → List Char
  | 0, _ => []
  | w + 1, n => hexPad w (n / 16) ++ [hexChar (n % 16)]

/-- `trace.SpanID.String()`: 8 bytes, 16 hex digits. -/
def sidString (n : Nat) : String := ⟨hexPad 16 n⟩

/-- `trace.TraceID.String()`: 16 bytes, 32 hex digits. -/
def tidString (n : Nat) : String := ⟨hexPad 32 n⟩

/-- `trace.SpanID.IsValid()`: at least one non-zero byte. -/
def sidValid (n : Nat) : Bool := n ≠ 0

/-- Decimal digits of `n`, no padding (`0` renders as `"0"`). -/
def decChars (n : Nat) : List Char :=
  (Nat.toDigits 10 n)

/-- Decimal rendering of `n` left-padded with zeros to width `w`
(the `2006`/`01`/`02`… fields of the Go time layout). -/
def padZero (w : Nat) (n : Nat) : List Char :=
  List.replicate (w - (decChars n).length) '0' ++ decChars n

/-- Proleptic-Gregorian civil date from days since 1970-01-01 (the calendar
computed by Go's `time.Time.Date`): year, month, day. -/
def civilFromDays (z : Int) : Int × Nat × Nat :=
  let z := z + 719468
  let era := Int.fdiv z 146097
  let doe := (z - era * 146097).toNat
  let yoe := (doe - doe / 1460 + doe / 36524 - doe / 146096) / 365
  let y : Int := (yoe : Int) + era * 400
  let doy := doe - (365 * yoe + yoe / 4 - yoe / 100)
  let mp := (5 * doy + 2) / 153
  let d := doy - (153 * mp + 2) / 5 + 1
  let m := if mp < 10 then mp + 3 else mp - 9
  (if m ≤ 2 then y + 1 else y, m, d)

/-- `formatTime` of `printer.go`: Go layout `"2006-01-02 15:04:05.000 MST"`
for a UTC time given in unix nanoseconds.  `.000` is the millisecond part,
`MST` renders as the zone abbreviation `UTC`. -/
def formatTime (t : Int) : String :=
  let sec := Int.fdiv t 1000000000
  let ns := (t - sec * 1000000000).toNat
  let days := Int.fdiv sec 86400
  let secOfDay := (sec - days * 86400).toNat
  let (y, m, d) := civilFromDays days
  let yChars := if y < 0 then '-' :: padZero 4 y.natAbs else padZero 4 y.toNat
  ⟨yChars ++ '-' :: padZero 2 m ++ '-' :: padZero 2 d ++
    ' ' :: padZero 2 (secOfDay / 3600) ++ ':' :: padZero 2 (secOfDay / 60 % 60) ++
    ':' :: padZero 2 (secOfDay % 60) ++ '.' :: padZero 3 (ns / 1000000) ++
    ' ' :: ['U', 'T', 'C']⟩

/-- The fraction loop `fmtFrac` of Go `time.Duration.String`: prints a `.`
followed by `prec` digits of `v`, omitting trailing zeros (possibly printing
nothing); returns the printed characters and `v` shifted right. -/
def fmtFrac : Nat → Nat → List Char → Bool → List Char × Nat
  | 0, v, acc, print => (if print then '.' :: acc else acc, v)
  | prec + 1, v, acc, print =>
    let digit := v % 10
    let print := print || digit ≠ 0
    fmtFrac prec (v / 10) (if print then digitChar digit :: acc else acc) print

/-- Go `time.Duration.String()` for a duration of `d` nanoseconds. -/
def durationString (d : Int) : String :=
  let u := d.natAbs
  let s : List Char :=
    if u < 1000000000 then
      if u = 0 then ['0', 's']
      else if u < 1000 then decChars u ++ ['n', 's']
      else if u < 1000000 then
        let (frac, u') := fmtFrac 3 u [] false
        decChars u' ++ frac ++ ['µ', 's']
      else
        let (frac, u') := fmtFrac 6 u [] false
        decChars u' ++ frac ++ ['m', 's']
    else
      let (frac, u') := fmtFrac 9 u [] false
      let secPart := decChars (u' % 60) ++ frac ++ ['s']
      let u2 := u' / 60
      let rest :=
        if u2 > 0 then
          (if u2 / 60 > 0 then decChars (u2 / 60) ++ ['h'] else []) ++
            decChars (u2 % 60) ++ ['m']
        else []
      rest ++ secPart
  ⟨if d < 0 then '-' :: s else s⟩

/-! ## Data model: `tracetest.SpanStub` -/

/-- An attribute value (`attribute.Value`), restricted to the value kinds the
spec's data model names: string, (64-bit) integer, boolean.  `display` is the
`fmt.Sprintf("%v", attr.Value.AsInterface())` rendering. -/
inductive AttrVal where
  | str (s : String)
  | int (i : Int)
  | bool (b : Bool)
deriving DecidableEq

/-- `%v` display of an attribute value. -/
def AttrVal.display : AttrVal → String
  | .str s => s
  | .int i => toString i
  | .bool b => if b then "true" else "false"

/-- `tracetest.SpanStub`, keeping the fields `PrintSpanTree` reads.
`spanID` is `SpanContext.SpanID()`, `parentID` is `Parent.SpanID()`
(0 when the parent span context is absent/invalid). -/
structure SpanStub where
  name : String
  traceID : Nat
  spanID : Nat
  parentID : Nat
  startTime : Int
  endTime : Int
  attributes : List (String × AttrVal)
deriving DecidableEq

instance : Inhabited SpanStub := ⟨⟨"", 0, 0, 0, 0, 0, []⟩⟩

/-- `s.StartTime.Before(t.StartTime)` — the `less` of both `sort.Slice`
calls in `PrintSpanTree`. -/
def startBefore (s t : SpanStub) : Bool := s.startTime < t.startTime

/-! ## Lines of text

`strings.Split(s, "\n")` / `strings.Join(ls, "\n")`, defined on the
character list so the line structure of rendered blocks can be reasoned
about. -/

/-- `strings.Split(s, "\n")` on character lists. -/
def splitNLc : List Char → List (List Char)
  | [] => [[]]
  | c :: cs =>
    if c = '\n' then [] :: splitNLc cs
    else
      match splitNLc cs with
      | [] => [[c]]
      | l :: ls => (c :: l) :: ls

/-- `strings.Split(s, "\n")`. -/
def splitNL (s : String) : List String := (splitNLc s.data).map String.mk

/-- `strings.Join(ls, "\n")`. -/
def joinNL : List String → String
  | [] => ""
  | [s] => s
  | s :: ls => s ++ "\n" ++ joinNL ls

/-- A string with no newline (a single display line). -/
abbrev noNL (s : String) : Prop := '\n' ∉ s.data

/-- `strings.Repeat(" ", n)`. -/
def spaces (n : Nat) : String := ⟨List.replicate n ' '⟩

/-- `lipgloss.Width` of a single line: every character the printer emits is
one cell wide, so the width is the rune count. -/
def strWidth (s : String) : Nat := s.data.length

/-- Maximum width of a list of lines. -/
def maxWidth (ls : List String) : Nat := ls.foldl (fun m l => max m (strWidth l)) 0

/-! ## The lipgloss layout backend

Only the structural behaviour, in the ASCII color profile (no escape
sequences). -/

/-- `lipgloss.JoinVertical(lipgloss.Left, strs...)`: split every block into
lines, right-pad every line to the widest, stack. -/
def joinVertical (strs : List String) : String :=
  match strs with
  | [] => ""
  | [s] => s
  | _ =>
    let ls := (strs.map splitNL).flatten
    joinNL (ls.map (fun l => l ++ spaces (maxWidth ls - strWidth l)))

/-- `boxStyle.Render`: one cell of left/right padding, lines padded to equal
width, rounded border (`Margin(0)`; border color invisible in the ASCII
profile). -/
def boxRender (content : String) : String :=
  let ls := splitNL content
  let w := maxWidth ls
  joinNL (("╭" ++ ⟨List.replicate (w + 2) '─'⟩ ++ "╮") ::
    ls.map (fun l => "│ " ++ l ++ spaces (w - strWidth l) ++ " │") ++
    ["╰" ++ ⟨List.replicate (w + 2) '─'⟩ ++ "╯"])

/-- `labelStyle.Render` (ASCII profile: the text itself). -/
def labelStyleRender (s : String) : String := s

/-- `valueStyle.Render` (ASCII profile: the text itself). -/
def valueStyleRender (s : String) : String := s

/-- `errorHighlightStyle.Render` (ASCII profile: the text itself). -/
def errorHighlightStyleRender (s : String) : String := s

/-- `childIndent` of `printer.go`. -/
def childIndent : String := "  "

/-- `indentAllLines(s, indent)`: prepend `indent` to every line. -/
def indentAllLines (s indent : String) : String :=
  joinNL ((splitNL s).map (fun line => indent ++ line))

/-! ## The printer -/

/-- `isErrorAttribute(key, val)` of `printer.go`. -/
def isErrorAttribute (key : String) (val : AttrVal) : Bool :=
  if key = "error" ∨ key = "error_code" ∨ key = "rpc.connect_rpc.error_code" then
    true
  else
    match val with
    | .str strVal => strVal = "error" ∨ strVal = "not_found"
    | _ => false

/-- `joinLabelValue(label, val)`; the caller's `fmt.Sprintf("%v", val)`
conversion is applied by each call site below. -/
def joinLabelValue (label val : String) : String :=
  labelStyleRender label ++ "  " ++ valueStyleRender val

/-- One attribute bullet entry of `buildSpanBox`:
`childIndent + attrStyle.Render(fmt.Sprintf("• %s = %v", attr.Key, val))`,
where `attrStyle` is `errorHighlightStyle` for error-related attributes and
`valueStyle` otherwise. -/
def attrEntry (kv : String × AttrVal) : String :=
  let bullet := "• " ++ kv.1 ++ " = " ++ kv.2.display
  childIndent ++
    (if isErrorAttribute kv.1 kv.2 then errorHighlightStyleRender bullet
     else valueStyleRender bullet)

/-- Steps 1–2 of `buildSpanBox`: the `lines` slice before child boxes are
appended (span fields, the `Attributes:` header, one bullet per attribute). -/
def spanEntries (s : SpanStub) : List String :=
  [joinLabelValue "Span Name:" s.name,
   joinLabelValue "TraceID:" (tidString s.traceID),
   joinLabelValue "SpanID:" (sidString s.spanID)] ++
  (if sidValid s.parentID then [joinLabelValue "ParentSpan:" (sidString s.parentID)]
   else []) ++
  [joinLabelValue "Start Time:" (formatTime s.startTime),
   joinLabelValue "End Time:" (formatTime s.endTime),
   joinLabelValue "Duration:" (durationString (s.endTime - s.startTime)),
   labelStyleRender "Attributes:"] ++
  s.attributes.map attrEntry

/-- The children map: association list from parent-id string to child list
(Go `map[string][]tracetest.SpanStub`; iteration-order questions are treated
explicitly below). -/
abbrev CMap : Type := List (String × List SpanStub)

/-- Map lookup `m[k]` with the zero value `nil` for missing keys. -/
def mapGet (m : CMap) (k : String) : List SpanStub :=
  match m with
  | [] => []
  | e :: rest => if e.1 = k then e.2 else mapGet rest k

/-- `childrenMap[parentID] = append(childrenMap[parentID], s)`. -/
def mapAppend (m : CMap) (k : String) (s : SpanStub) : CMap :=
  match m with
  | [] => [(k, [s])]
  | e :: rest => if e.1 = k then (e.1, e.2 ++ [s]) :: rest else e :: mapAppend rest k s

/-- Keys of the map. -/
def mapKeys (m : CMap) : List String := m.map (·.1)

/-- The loop of `PrintSpanTree` building the raw children map:
for each span with a valid parent id, append it under its parent's key. -/
def childrenMapRaw (spans : List SpanStub) : CMap :=
  spans.foldl
    (fun m s => if sidValid s.parentID then mapAppend m (sidString s.parentID) s else m)
    []

/-- `sort.Slice(children, …StartTime.Before…)` with the fuel-backed pdqsort;
the fallback (never taken in completed runs) keeps the pipeline total. -/
def sortSpans (l : List SpanStub) : List SpanStub :=
  (sortSliceGo startBefore l).getD l

/-- Sorting the bucket of one key in place
(the body of `for pid := range childrenMap`). -/
def mapSortKey (m : CMap) (k : String) : CMap :=
  m.map (fun e => if e.1 = k then (e.1, sortSpans e.2) else e)

/-- The `for pid := range childrenMap` loop, visiting keys in the order
`order` (Go's map iteration order is unspecified; any enumeration of the
keys is a possible order). -/
def sortBuckets (order : List String) (m : CMap) : CMap :=
  order.foldl mapSortKey m

/-- The children map as `PrintSpanTree` uses it after the sorting loop,
for one possible iteration order (the storage order); theorem `c6` shows the
choice is irrelevant. -/
def childrenMapOf (spans : List SpanStub) : CMap :=
  sortBuckets (mapKeys (childrenMapRaw spans)) (childrenMapRaw spans)

/-- The root-collection loop of `PrintSpanTree`:
spans whose parent id is invalid, in input order. -/
def rootsOf (spans : List SpanStub) : List SpanStub :=
  spans.foldl (fun acc s => if sidValid s.parentID then acc else acc ++ [s]) []

/-- `buildSpanBox(span, childrenMap)`, with the recursion depth made an
explicit fuel (`none`: the Go recursion would still be running at that
depth).  Children are looked up under `span.SpanContext.SpanID().String()`,
rendered recursively, indented, appended after the span's own lines, joined
vertically and boxed. -/
def buildSpanBoxF : Nat → SpanStub → CMap → Option String
  | 0, _, _ => none
  | fuel + 1, s, m => do
    let childBoxes ← mapMOpt (fun c => buildSpanBoxF fuel c m)
      (mapGet m (sidString s.spanID))
    some (boxRender (joinVertical
      (spanEntries s ++ childBoxes.map (fun b => indentAllLines b childIndent))))

/-- `PrintSpanTree(w, spans)` with the children-map iteration order `order`:
the text written to `w` (`fmt.Fprintln` appends one newline per root). -/
def printSpanTreeOrd (fuel : Nat) (order : List String) (spans : List SpanStub) :
    Option String :=
  if spans.length = 0 then some ""
  else
    let m := sortBuckets order (childrenMapRaw spans)
    let roots := sortSpans (rootsOf spans)
    (mapMOpt (fun r => buildSpanBoxF fuel r m) roots).map
      (fun boxes => String.join (boxes.map (· ++ "\n")))

/-- `PrintSpanTree(w, spans)`: the text written to `w`. -/
def printSpanTree (fuel : Nat) (spans : List SpanStub) : Option String :=
  printSpanTreeOrd fuel (mapKeys (childrenMapRaw spans)) spans

/-! ## Derived observations used by the claims -/

/-- The spans rendered below `s` (including `s`), in rendering order, at
recursion depth `fuel`: exactly the spans `buildSpanBoxF` visits. -/
def renderedBelow : Nat → SpanStub → CMap → List SpanStub
  | 0, _, _ => []
  | fuel + 1, s, m =>
    s :: ((mapGet m (sidString s.spanID)).map (fun c => renderedBelow fuel c m)).flatten

/-- All spans rendered by `PrintSpanTree` at recursion depth `fuel`. -/
def renderedSpans (fuel : Nat) (spans : List SpanStub) : List SpanStub :=
  (sortSpans (rootsOf spans)).map
      (fun r => renderedBelow fuel r (childrenMapOf spans)) |>.flatten

/-- Depth of the subtree below `s` (1 for a leaf), computed with the same
fuel discipline as `buildSpanBoxF`: `none` when `fuel` does not suffice. -/
def spanDepth : Nat → SpanStub → CMap → Option Nat
  | 0, _, _ => none
  | fuel + 1, s, m => do
    let ds ← mapMOpt (fun c => spanDepth fuel c m) (mapGet m (sidString s.spanID))
    some (1 + ds.foldl max 0)

/-- A rank function witnessing that the parent/child id graph of the map is
acyclic: along every edge from a parent key to a child's own id, the rank
strictly drops. -/
abbrev RankedMap (m : CMap) (rank : String → Nat) : Prop :=
  ∀ e ∈ m, ∀ c ∈ e.2, rank (sidString c.spanID) < rank e.1

/-! ## Contiguous-substring test

Executable check that one string occurs contiguously inside another,
used to state the containment claim about rendered blocks. -/

/-- Does `n` lead `h` (is `h = n ++ _`)? -/
def leadMatch : List Char → List Char → Bool
  | [], _ => true
  | _ :: _, [] => false
  | a :: as, b :: bs => a = b && leadMatch as bs

/-- Does `n` occur contiguously in `h`? -/
def segIn : List Char → List Char → Bool
  | n, [] => n.isEmpty
  | n, c :: cs => leadMatch n (c :: cs) || segIn n cs

/-- `needle` occurs as a contiguous substring of `hay`. -/
def strContains (needle hay : String) : Bool := segIn needle.data hay.data

/-! ## Concrete inputs used by witnesses and counterexamples

`exRoot`…`exChild3` mirror the fixture of the repository's test
(`TestPrintSpanTree`), with concrete UTC timestamps. -/

/-- Base time for the examples: 2023-11-14 22:13:20 UTC in unix nanoseconds. -/
def exBase : Int := 1700000000000000000

def exRoot : SpanStub :=
  ⟨"root-span", 0x0102030405060708090a0b0c0d0e0f10, 0x0a0b0c0d0e0f1011, 0,
    exBase - 2000000000, exBase - 1000000000, [("component", .str "root")]⟩

def exChild1 : SpanStub :=
  ⟨"child-span-1", exRoot.traceID, 0x1415161718191a1b, exRoot.spanID,
    exBase - 1500000000, exBase - 1000000000, [("component", .str "child-1")]⟩

def exChild2 : SpanStub :=
  ⟨"child-span-2", exRoot.traceID, 0x1e1f202122232425, exRoot.spanID,
    exBase - 1400000000, exBase - 1000000000,
    [("component", .str "child-2"), ("error_code", .str "something_wrong")]⟩

def exChild3 : SpanStub :=
  ⟨"child-span-3", exRoot.traceID, 0x28292a2b2c2d2e2f, exChild2.spanID,
    exBase - 1300000000, exBase - 1000000000, [("component", .str "child-3")]⟩

def exSpans : List SpanStub := [exRoot, exChild1, exChild2, exChild3]

/-- A rank function witnessing acyclicity of `exSpans`' children map. -/
def exRank (k : String) : Nat :=
  if k = sidString exRoot.spanID then 2
  else if k = sidString exChild2.spanID then 1
  else 0

/-- An orphan: its parent id (`0xdead`) is valid but matches no span. -/
def exOrphan : SpanStub :=
  ⟨"orphan-span", exRoot.traceID, 0x3232323232323232, 0xdead,
    exBase - 1200000000, exBase - 1000000000, [("component", .str "orphan")]⟩

/-- `exSpans` with the orphan inserted in the middle. -/
def exSpansOrphan : List SpanStub := [exRoot, exChild1, exOrphan, exChild2, exChild3]

/-- A root span for the stability counterexample: start time `exBase + off`. -/
def mkRoot (name : String) (sid : Nat) (off : Int) : SpanStub :=
  ⟨name, 0x01, sid, 0, exBase + off, exBase + off + 1000, []⟩

/-- Thirteen parentless spans named `s0`…`s12`.  `s0` starts last
(offset 1 ns); `s1`…`s12` all share the same start time (offset 0).
Go's `sort.Slice` is not stable on 13 elements: it renders `s6` before
`s1`…`s5`. -/
def unstableSpans : List SpanStub :=
  [mkRoot "s0" 1 1, mkRoot "s1" 2 0, mkRoot "s2" 3 0, mkRoot "s3" 4 0,
   mkRoot "s4" 5 0, mkRoot "s5" 6 0, mkRoot "s6" 7 0, mkRoot "s7" 8 0,
   mkRoot "s8" 9 0, mkRoot "s9" 10 0, mkRoot "s10" 11 0, mkRoot "s11" 12 0,
   mkRoot "s12" 13 0]

/-- Two spans that are each other's parent: every parent id is valid, the
root set is empty. -/
def cycleSpans : List SpanStub :=
  [⟨"cycle-a", 0x01, 0x0a, 0x0b, exBase, exBase + 1000, []⟩,
   ⟨"cycle-b", 0x01, 0x0b, 0x0a, exBase, exBase + 1000, []⟩]

/-! ## Infrastructure lemmas: lines of text -/

theorem data_mk (l : List Char) : (String.mk l).data = l := rfl

theorem mk_data (s : String) : String.mk s.data = s := rfl

theorem append_data (a b : String) : (a ++ b).data = a.data ++ b.data :=
  String.data_append a b

theorem str_append_assoc (a b c : String) : a ++ b ++ c = a ++ (b ++ c) := by
  apply String.ext
  simp [append_data, List.append_assoc]

theorem splitNLc_ne_nil (l : List Char) : splitNLc l ≠ [] := by
  induction l with
  | nil => simp [splitNLc]
  | cons c cs ih =>
    simp only [splitNLc]
    split
    · simp
    · cases h : splitNLc cs with
      | nil => simp
      | cons x xs => simp

theorem splitNLc_of_noNL {l : List Char} (h : '\n' ∉ l) : splitNLc l = [l] := by
  induction l with
  | nil => rfl
  | cons c cs ih =>
    simp only [List.mem_cons, not_or] at h
    simp only [splitNLc]
    rw [if_neg (fun hc => h.1 hc.symm), ih h.2]

theorem splitNLc_append_cons {a : List Char} (b : List Char) (h : '\n' ∉ a) :
    splitNLc (a ++ '\n' :: b) = a :: splitNLc b := by
  induction a with
  | nil => simp [splitNLc]
  | cons c cs ih =>
    simp only [List.mem_cons, not_or] at h
    simp only [List.cons_append, splitNLc]
    rw [if_neg (fun hc => h.1 hc.symm)]
    simp only [List.append_eq]
    rw [ih h.2]

theorem noNL_of_mem_splitNLc {l : List Char} {x : List Char} (hx : x ∈ splitNLc l) :
    '\n' ∉ x := by
  induction l generalizing x with
  | nil =>
    simp only [splitNLc, List.mem_singleton] at hx
    simp [hx]
  | cons c cs ih =>
    simp only [splitNLc] at hx
    by_cases hc : c = '\n'
    · rw [if_pos hc] at hx
      rcases List.mem_cons.mp hx with h | h
      · simp [h]
      · exact ih h
    · rw [if_neg hc] at hx
      cases hs : splitNLc cs with
      | nil => exact absurd hs (splitNLc_ne_nil cs)
      | cons y ys =>
        rw [hs] at hx
        rcases List.mem_cons.mp hx with h | h
        · subst h
          intro hmem
          rcases List.mem_cons.mp hmem with h1 | h1
          · exact hc h1.symm
          · have hy : y ∈ splitNLc cs := by
              rw [hs]
              exact List.mem_cons_self y ys
            exact ih hy h1
        · have hmem : x ∈ splitNLc cs := by
            rw [hs]
            exact List.mem_cons_of_mem _ h
          exact ih hmem

theorem noNL_mk {l : List Char} (h : '\n' ∉ l) : noNL (String.mk l) := h

theorem noNL_append {a b : String} (ha : noNL a) (hb : noNL b) : noNL (a ++ b) := by
  intro hmem
  rw [append_data] at hmem
  rcases List.mem_append.mp hmem with h | h
  · exact ha h
  · exact hb h

theorem noNL_spaces (n : Nat) : noNL (spaces n) := by
  intro hmem
  have := List.eq_of_mem_replicate hmem
  simp at this

theorem noNL_of_mem_splitNL {s : String} {x : String} (hx : x ∈ splitNL s) : noNL x := by
  rcases List.mem_map.mp hx with ⟨l, hl, rfl⟩
  exact noNL_of_mem_splitNLc hl

theorem splitNL_of_noNL {s : String} (h : noNL s) : splitNL s = [s] := by
  unfold splitNL
  rw [splitNLc_of_noNL h]
  rfl

theorem splitNL_ne_nil (s : String) : splitNL s ≠ [] := by
  unfold splitNL
  intro h
  exact splitNLc_ne_nil s.data (List.map_eq_nil_iff.mp h)

theorem splitNL_joinNL {ls : List String} (h : ∀ s ∈ ls, noNL s) (hne : ls ≠ []) :
    splitNL (joinNL ls) = ls := by
  induction ls with
  | nil => exact absurd rfl hne
  | cons s rest ih =>
    cases rest with
    | nil =>
      show splitNL (joinNL [s]) = [s]
      exact splitNL_of_noNL (h s (List.mem_cons_self _ _))
    | cons t rest' =>
      show splitNL (s ++ "\n" ++ joinNL (t :: rest')) = s :: t :: rest'
      have hs : noNL s := h s (List.mem_cons_self _ _)
      have hdata : (s ++ "\n" ++ joinNL (t :: rest')).data
          = s.data ++ '\n' :: (joinNL (t :: rest')).data := by
        rw [append_data, append_data]
        have hnl : "\n".data = ['\n'] := rfl
        rw [hnl, List.append_assoc]
        rfl
      unfold splitNL
      rw [hdata, splitNLc_append_cons _ hs]
      have ihres := ih (fun x hx => h x (List.mem_cons.mpr (Or.inr hx)))
        (List.cons_ne_nil _ _)
      unfold splitNL at ihres
      simp only [List.map_cons, mk_data]
      rw [ihres]

/-! ## Infrastructure lemmas: widths and padding -/

theorem strWidth_append (a b : String) : strWidth (a ++ b) = strWidth a + strWidth b := by
  unfold strWidth
  rw [append_data, List.length_append]

theorem strWidth_spaces (n : Nat) : strWidth (spaces n) = n := by
  unfold strWidth spaces
  simp

theorem foldl_max_le_iff {ls : List Nat} {acc w : Nat} :
    ls.foldl max acc ≤ w ↔ acc ≤ w ∧ ∀ x ∈ ls, x ≤ w := by
  induction ls generalizing acc with
  | nil => simp
  | cons x xs ih =>
    simp only [List.foldl_cons, ih, Nat.max_le, List.mem_cons]
    constructor
    · rintro ⟨⟨h1, h2⟩, h3⟩
      exact ⟨h1, fun y hy => hy.elim (fun he => he ▸ h2) (h3 y)⟩
    · rintro ⟨h1, h2⟩
      exact ⟨⟨h1, h2 x (Or.inl rfl)⟩, fun y hy => h2 y (Or.inr hy)⟩

theorem le_foldl_max {ls : List Nat} {acc : Nat} (x : Nat) (hx : x ∈ ls) :
    x ≤ ls.foldl max acc := by
  have : ls.foldl max acc ≤ ls.foldl max acc := le_refl _
  exact (foldl_max_le_iff.mp this).2 x hx

theorem maxWidth_eq_foldl_map (ls : List String) :
    maxWidth ls = (ls.map strWidth).foldl max 0 :=
  (List.foldl_map _ _ _ _).symm

theorem strWidth_le_maxWidth {ls : List String} {l : String} (hl : l ∈ ls) :
    strWidth l ≤ maxWidth ls := by
  rw [maxWidth_eq_foldl_map]
  exact le_foldl_max _ (List.mem_map_of_mem strWidth hl)

theorem maxWidth_of_all_eq {ls : List String} {w : Nat} (hne : ls ≠ [])
    (h : ∀ l ∈ ls, strWidth l = w) : maxWidth ls = w := by
  apply Nat.le_antisymm
  · rw [maxWidth_eq_foldl_map, foldl_max_le_iff]
    refine ⟨Nat.zero_le w, ?_⟩
    intro x hx
    rcases List.mem_map.mp hx with ⟨l, hl, rfl⟩
    exact le_of_eq (h l hl)
  · rcases List.exists_mem_of_ne_nil ls hne with ⟨l, hl⟩
    calc w = strWidth l := (h l hl).symm
    _ ≤ maxWidth ls := strWidth_le_maxWidth hl

/-- Right-padding a line to the maximal width. -/
theorem strWidth_pad {l : String} {w : Nat} (h : strWidth l ≤ w) :
    strWidth (l ++ spaces (w - strWidth l)) = w := by
  rw [strWidth_append, strWidth_spaces]
  omega

theorem spaces_zero : spaces 0 = "" := rfl

theorem append_empty_str (s : String) : s ++ "" = s := by
  apply String.ext
  rw [append_data]
  have h : "".data = ([] : List Char) := rfl
  rw [h, List.append_nil]

/-! ## Infrastructure lemmas: the children map -/

theorem mapGet_cons (e : String × List SpanStub) (rest : CMap) (k : String) :
    mapGet (e :: rest) k = if e.1 = k then e.2 else mapGet rest k := rfl

theorem mapAppend_cons (e : String × List SpanStub) (rest : CMap) (k : String)
    (s : SpanStub) :
    mapAppend (e :: rest) k s
      = if e.1 = k then (e.1, e.2 ++ [s]) :: rest else e :: mapAppend rest k s := rfl

theorem mapKeys_cons (e : String × List SpanStub) (rest : CMap) :
    mapKeys (e :: rest) = e.1 :: mapKeys rest := rfl

theorem mapGet_mapAppend (m : CMap) (k k' : String) (s : SpanStub) :
    mapGet (mapAppend m k s) k'
      = if k' = k then mapGet m k' ++ [s] else mapGet m k' := by
  induction m with
  | nil =>
    by_cases h : k' = k
    · subst h
      simp [mapAppend, mapGet]
    · show (if k = k' then [s] else []) = _
      rw [if_neg (fun hc : k = k' => h hc.symm), if_neg h]
      rfl
  | cons e rest ih =>
    rw [mapAppend_cons]
    by_cases he : e.1 = k
    · rw [if_pos he, mapGet_cons, mapGet_cons]
      by_cases h : e.1 = k'
      · have hk : k' = k := h.symm.trans he
        rw [if_pos h, if_pos h, if_pos hk]
      · have hk : ¬ k' = k := fun hc => h (he.trans hc.symm)
        rw [if_neg h, if_neg h, if_neg hk]
    · rw [if_neg he, mapGet_cons, mapGet_cons]
      by_cases h : e.1 = k'
      · have hk : ¬ k' = k := fun hc => he (h.trans hc)
        rw [if_pos h, if_pos h, if_neg hk]
      · rw [if_neg h, if_neg h, ih]

/-- The children-map loop characterised: the bucket of `k` holds exactly the
spans with a valid parent id equal to `k`, in input order. -/
theorem mapGet_childrenMapRaw (spans : List SpanStub) (k : String) :
    mapGet (childrenMapRaw spans) k
      = spans.filter (fun s => sidValid s.parentID && (sidString s.parentID == k)) := by
  suffices h : ∀ (m : CMap),
      mapGet (spans.foldl
        (fun m s => if sidValid s.parentID then mapAppend m (sidString s.parentID) s else m)
        m) k
      = mapGet m k ++
        spans.filter (fun s => sidValid s.parentID && (sidString s.parentID == k)) by
    have := h []
    simpa [mapGet] using this
  induction spans with
  | nil => simp [mapGet]
  | cons s rest ih =>
    intro m
    simp only [List.foldl_cons, List.filter_cons]
    by_cases hv : sidValid s.parentID
    · rw [if_pos hv]
      by_cases hk : sidString s.parentID = k
      · have : (sidValid s.parentID && (sidString s.parentID == k)) = true := by
          simp [hv, hk]
        rw [ih, mapGet_mapAppend, if_pos hk.symm, this]
        simp
      · have : (sidValid s.parentID && (sidString s.parentID == k)) = false := by
          simp [hk]
        rw [ih, mapGet_mapAppend, if_neg (fun hc => hk hc.symm), this]
        simp
    · rw [if_neg hv]
      have : (sidValid s.parentID && (sidString s.parentID == k)) = false := by
        simp [hv]
      rw [ih, this]
      simp

/-- The root loop characterised: the spans with an invalid parent id, in
input order. -/
theorem rootsOf_eq_filter (spans : List SpanStub) :
    rootsOf spans = spans.filter (fun s => !sidValid s.parentID) := by
  suffices h : ∀ (acc : List SpanStub),
      spans.foldl (fun acc s => if sidValid s.parentID then acc else acc ++ [s]) acc
        = acc ++ spans.filter (fun s => !sidValid s.parentID) by
    simpa using h []
  induction spans with
  | nil => simp
  | cons s rest ih =>
    intro acc
    simp only [List.foldl_cons, List.filter_cons]
    by_cases hv : sidValid s.parentID
    · rw [if_pos hv, ih]
      simp [hv]
    · rw [if_neg hv, ih]
      simp [hv]

theorem mapGet_eq_nil_of_not_mem_keys {m : CMap} {k : String}
    (h : k ∉ mapKeys m) : mapGet m k = [] := by
  induction m with
  | nil => rfl
  | cons e rest ih =>
    simp only [mapKeys, List.map_cons, List.mem_cons, not_or] at h
    simp only [mapGet]
    rw [if_neg (fun hc => h.1 hc.symm)]
    exact ih (by simpa [mapKeys] using h.2)

theorem mem_of_mapGet_ne_nil {m : CMap} {k : String} (h : mapGet m k ≠ []) :
    ∃ e ∈ m, e.1 = k ∧ e.2 = mapGet m k := by
  induction m with
  | nil => exact absurd rfl h
  | cons e rest ih =>
    simp only [mapGet] at h ⊢
    by_cases he : e.1 = k
    · exact ⟨e, List.mem_cons_self _ _, he, by rw [if_pos he]⟩
    · rw [if_neg he] at h ⊢
      rcases ih h with ⟨e', he', h1, h2⟩
      exact ⟨e', List.mem_cons_of_mem _ he', h1, h2⟩

/-- `sort.Slice` of an empty slice does nothing. -/
theorem sortSpans_nil : sortSpans [] = [] := rfl

theorem mapSortKey_cons (e : String × List SpanStub) (rest : CMap) (k : String) :
    mapSortKey (e :: rest) k
      = (if e.1 = k then (e.1, sortSpans e.2) else e) :: mapSortKey rest k := rfl

theorem mapGet_mapSortKey (m : CMap) (k k' : String) :
    mapGet (mapSortKey m k') k
      = if k = k' then sortSpans (mapGet m k) else mapGet m k := by
  induction m with
  | nil =>
    by_cases h : k = k'
    · show ([] : List SpanStub) = _
      rw [if_pos h]
      exact sortSpans_nil.symm
    · show ([] : List SpanStub) = _
      rw [if_neg h]
      rfl
  | cons e rest ih =>
    rw [mapSortKey_cons]
    by_cases he : e.1 = k'
    · rw [if_pos he, mapGet_cons, mapGet_cons]
      by_cases h : e.1 = k
      · have hk : k = k' := h.symm.trans he
        rw [if_pos h, if_pos h, if_pos hk]
      · have hk : ¬ k = k' := fun hc => h (he.trans hc.symm)
        rw [if_neg h, if_neg h, if_neg hk, ih, if_neg hk]
    · rw [if_neg he, mapGet_cons, mapGet_cons]
      by_cases h : e.1 = k
      · have hk : ¬ k = k' := fun hc => he (h.trans hc)
        rw [if_pos h, if_pos h, if_neg hk]
      · rw [if_neg h, if_neg h, ih]

theorem mapKeys_mapSortKey (m : CMap) (k : String) :
    mapKeys (mapSortKey m k) = mapKeys m := by
  induction m with
  | nil => rfl
  | cons e rest ih =>
    simp only [mapSortKey, mapKeys, List.map_cons] at ih ⊢
    by_cases he : e.1 = k
    · rw [if_pos he]
      simpa [mapSortKey, mapKeys] using ih
    · rw [if_neg he]
      simpa [mapSortKey, mapKeys] using ih

theorem mapGet_sortBuckets {order : List String} (hnd : order.Nodup) (m : CMap)
    (k : String) :
    mapGet (sortBuckets order m) k
      = if k ∈ order then sortSpans (mapGet m k) else mapGet m k := by
  induction order generalizing m with
  | nil => simp [sortBuckets]
  | cons k' rest ih =>
    have hnd' : rest.Nodup := (List.nodup_cons.mp hnd).2
    have hk' : k' ∉ rest := (List.nodup_cons.mp hnd).1
    show mapGet (sortBuckets rest (mapSortKey m k')) k = _
    rw [ih hnd']
    by_cases hmem : k ∈ rest
    · have : k ∈ k' :: rest := List.mem_cons_of_mem _ hmem
      rw [if_pos hmem, if_pos this, mapGet_mapSortKey]
      have hne : ¬ k = k' := fun hc => hk' (hc ▸ hmem)
      rw [if_neg hne]
    · rw [if_neg hmem, mapGet_mapSortKey]
      by_cases he : k = k'
      · rw [if_pos he, if_pos (he ▸ List.mem_cons_self k' rest)]
      · rw [if_neg he, if_neg (by simp [he, hmem])]

theorem mapKeys_mapAppend (m : CMap) (k : String) (s : SpanStub) :
    mapKeys (mapAppend m k s) = if k ∈ mapKeys m then mapKeys m else mapKeys m ++ [k] := by
  induction m with
  | nil => simp [mapAppend, mapKeys]
  | cons e rest ih =>
    rw [mapAppend_cons]
    by_cases he : e.1 = k
    · have hm : k ∈ mapKeys (e :: rest) := by
        rw [mapKeys_cons]
        exact List.mem_cons.mpr (Or.inl he.symm)
      rw [if_pos he, if_pos hm]
      rfl
    · rw [if_neg he, mapKeys_cons, mapKeys_cons, ih]
      by_cases hmem : k ∈ mapKeys rest
      · rw [if_pos hmem,
          if_pos (show k ∈ e.1 :: mapKeys rest from List.mem_cons_of_mem _ hmem)]
      · have hnot : k ∉ e.1 :: mapKeys rest := by
          intro hc
          rcases List.mem_cons.mp hc with h1 | h1
          · exact he h1.symm
          · exact hmem h1
        rw [if_neg hmem, if_neg hnot, List.cons_append]

theorem nodup_mapKeys_childrenMapRaw (spans : List SpanStub) :
    (mapKeys (childrenMapRaw spans)).Nodup := by
  suffices h : ∀ (m : CMap), (mapKeys m).Nodup →
      (mapKeys (spans.foldl
        (fun m s => if sidValid s.parentID then mapAppend m (sidString s.parentID) s else m)
        m)).Nodup by
    exact h [] List.nodup_nil
  induction spans with
  | nil => exact fun m hm => hm
  | cons s rest ih =>
    intro m hm
    simp only [List.foldl_cons]
    by_cases hv : sidValid s.parentID
    · rw [if_pos hv]
      apply ih
      rw [mapKeys_mapAppend]
      by_cases hmem : sidString s.parentID ∈ mapKeys m
      · rw [if_pos hmem]
        exact hm
      · rw [if_neg hmem]
        simpa [List.nodup_append] using ⟨hm, hmem⟩
    · rw [if_neg hv]
      exact ih m hm

/-- The sorted children map, bucket by bucket. -/
theorem mapGet_childrenMapOf (spans : List SpanStub) (k : String) :
    mapGet (childrenMapOf spans) k = sortSpans (mapGet (childrenMapRaw spans) k) := by
  unfold childrenMapOf
  rw [mapGet_sortBuckets (nodup_mapKeys_childrenMapRaw spans)]
  by_cases hmem : k ∈ mapKeys (childrenMapRaw spans)
  · rw [if_pos hmem]
  · rw [if_neg hmem, mapGet_eq_nil_of_not_mem_keys hmem, sortSpans_nil]

/-! ## Infrastructure lemmas: `mapMOpt` -/

theorem mapMOpt_congr {f g : α → Option β} {l : List α}
    (h : ∀ x ∈ l, f x = g x) : mapMOpt f l = mapMOpt g l := by
  induction l with
  | nil => rfl
  | cons a as ih =>
    simp only [mapMOpt]
    rw [h a (List.mem_cons_self _ _), ih (fun x hx => h x (List.mem_cons_of_mem _ hx))]

theorem mapMOpt_eq_some_map {f : α → Option β} {g : α → β} {l : List α}
    (h : ∀ x ∈ l, f x = some (g x)) : mapMOpt f l = some (l.map g) := by
  induction l with
  | nil => rfl
  | cons a as ih =>
    simp only [mapMOpt, List.map_cons]
    rw [h a (List.mem_cons_self _ _), ih (fun x hx => h x (List.mem_cons_of_mem _ hx))]
    rfl

theorem mapMOpt_eq_none {f : α → Option β} {l : List α} {x : α}
    (hx : x ∈ l) (h : f x = none) : mapMOpt f l = none := by
  induction l with
  | nil => cases hx
  | cons a as ih =>
    rcases List.mem_cons.mp hx with rfl | hmem
    · simp [mapMOpt, h]
    · simp only [mapMOpt]
      cases hfa : f a with
      | none => rfl
      | some b =>
        rw [ih hmem]
        rfl

theorem isSome_of_mapMOpt_eq_some {f : α → Option β} {l : List α} {r : List β}
    (h : mapMOpt f l = some r) : ∀ x ∈ l, (f x).isSome := by
  intro x hx
  cases hfx : f x with
  | none => rw [mapMOpt_eq_none hx hfx] at h; cases h
  | some b => rfl

theorem mapMOpt_isSome_iff {f : α → Option β} {l : List α} :
    (mapMOpt f l).isSome ↔ ∀ x ∈ l, (f x).isSome := by
  constructor
  · intro h
    rcases Option.isSome_iff_exists.mp h with ⟨r, hr⟩
    exact isSome_of_mapMOpt_eq_some hr
  · intro h
    induction l with
    | nil => rfl
    | cons a as ih =>
      rcases Option.isSome_iff_exists.mp (h a (List.mem_cons_self _ _)) with ⟨b, hb⟩
      have has : ∀ x ∈ as, (f x).isSome := fun x hx => h x (List.mem_cons_of_mem _ hx)
      rcases Option.isSome_iff_exists.mp (ih has) with ⟨r, hr⟩
      simp [mapMOpt, hb, hr]

theorem optBind_some (a : α) (g : α → Option β) : Option.bind (some a) g = g a := rfl

theorem optBind_none (g : α → Option β) : Option.bind (none : Option α) g = none := rfl

theorem mbind_some (a : α) (g : α → Option β) : (Bind.bind (some a) g : Option β) = g a :=
  rfl

theorem mbind_none (g : α → Option β) : (Bind.bind (none : Option α) g : Option β) = none :=
  rfl

theorem mapMOpt_cons_eq (f : α → Option β) (a : α) (t : List α) :
    mapMOpt f (a :: t)
      = Option.bind (f a) (fun b => Option.bind (mapMOpt f t) (fun bs => some (b :: bs))) :=
  rfl

theorem mapMOpt_append_cons {f : α → Option β} {x1 x2 : List α} {c : α} {r : List β}
    (h : mapMOpt f (x1 ++ c :: x2) = some r) :
    ∃ r1 rc r2, r = r1 ++ rc :: r2 ∧ f c = some rc ∧ mapMOpt f x1 = some r1
      ∧ mapMOpt f x2 = some r2 := by
  induction x1 generalizing r with
  | nil =>
    rw [List.nil_append, mapMOpt_cons_eq] at h
    cases hfc : f c with
    | none => rw [hfc, optBind_none] at h; cases h
    | some rc =>
      rw [hfc, optBind_some] at h
      cases hrest : mapMOpt f x2 with
      | none => rw [hrest, optBind_none] at h; cases h
      | some r2 =>
        rw [hrest, optBind_some] at h
        cases h
        exact ⟨[], rc, r2, rfl, rfl, rfl, rfl⟩
  | cons a as ih =>
    rw [List.cons_append, mapMOpt_cons_eq] at h
    cases hfa : f a with
    | none => rw [hfa, optBind_none] at h; cases h
    | some b =>
      rw [hfa, optBind_some] at h
      cases hrest : mapMOpt f (as ++ c :: x2) with
      | none => rw [hrest, optBind_none] at h; cases h
      | some rr =>
        rw [hrest, optBind_some] at h
        cases h
        rcases ih hrest with ⟨r1, rc, r2, hrr, hfc, h1, h2⟩
        refine ⟨b :: r1, rc, r2, by simp [hrr], hfc, ?_, h2⟩
        rw [mapMOpt_cons_eq, hfa, optBind_some, h1, optBind_some]

/-! ## Infrastructure lemmas: iteration order of the sorting loop (C6) -/

/-- Sorting the buckets of two keys commutes (each entry is transformed
independently). -/
theorem mapSortKey_comm (m : CMap) (k1 k2 : String) :
    mapSortKey (mapSortKey m k1) k2 = mapSortKey (mapSortKey m k2) k1 := by
  unfold mapSortKey
  rw [List.map_map, List.map_map]
  apply List.map_congr_left
  intro e _
  by_cases h1 : e.1 = k1 <;> by_cases h2 : e.1 = k2
  · have hk := h1.symm.trans h2
    subst hk
    simp [Function.comp, h1]
  · have hk : ¬ k1 = k2 := fun hc => h2 (h1.trans hc)
    simp [Function.comp, h1, h2, hk]
  · have hk : ¬ k2 = k1 := fun hc => h1 (h2.trans hc)
    simp [Function.comp, h1, h2, hk]
  · simp [Function.comp, h1, h2]

instance : RightCommutative mapSortKey := ⟨mapSortKey_comm⟩

/-- Visiting the keys in any of two orders that are permutations of each
other sorts the buckets identically. -/
theorem sortBuckets_perm {o1 o2 : List String} (h : o1.Perm o2) (m : CMap) :
    sortBuckets o1 m = sortBuckets o2 m :=
  h.foldl_eq m

/-! ## Infrastructure lemmas: the renderer consults only reachable buckets -/

theorem renderedBelow_succ (fuel : Nat) (s : SpanStub) (m : CMap) :
    renderedBelow (fuel + 1) s m
      = s :: ((mapGet m (sidString s.spanID)).map
          (fun c => renderedBelow fuel c m)).flatten := rfl

theorem buildSpanBoxF_succ (fuel : Nat) (s : SpanStub) (m : CMap) :
    buildSpanBoxF (fuel + 1) s m
      = Option.bind (mapMOpt (fun c => buildSpanBoxF fuel c m)
          (mapGet m (sidString s.spanID)))
          (fun childBoxes => some (boxRender (joinVertical
            (spanEntries s ++ childBoxes.map (fun b => indentAllLines b childIndent))))) :=
  rfl

/-- If two children maps agree on every bucket the recursion consults below
`s`, the rendered boxes agree (including whether the fuel suffices). -/
theorem buildSpanBoxF_congr : ∀ (fuel : Nat) (s : SpanStub) (m m' : CMap),
    (∀ k, k ∈ (renderedBelow fuel s m).map (fun t => sidString t.spanID) →
      mapGet m k = mapGet m' k) →
    buildSpanBoxF fuel s m = buildSpanBoxF fuel s m'
  | 0, _, _, _, _ => rfl
  | fuel + 1, s, m, m', h => by
    have hs : sidString s.spanID
        ∈ (renderedBelow (fuel + 1) s m).map (fun t => sidString t.spanID) := by
      rw [renderedBelow_succ]
      exact List.mem_map_of_mem _ (List.mem_cons_self _ _)
    have hkey : mapGet m (sidString s.spanID) = mapGet m' (sidString s.spanID) :=
      h _ hs
    rw [buildSpanBoxF_succ, buildSpanBoxF_succ, ← hkey]
    have hrec : ∀ c ∈ mapGet m (sidString s.spanID),
        buildSpanBoxF fuel c m = buildSpanBoxF fuel c m' := by
      intro c hc
      apply buildSpanBoxF_congr fuel c m m'
      intro k hk
      apply h
      rw [renderedBelow_succ, List.map_cons]
      apply List.mem_cons_of_mem
      rcases List.mem_map.mp hk with ⟨t, ht, rfl⟩
      apply List.mem_map_of_mem
      apply List.mem_flatten.mpr
      exact ⟨renderedBelow fuel c m, List.mem_map_of_mem _ hc, ht⟩
    rw [mapMOpt_congr hrec]

/-! ## Infrastructure lemmas: the substring test is sound -/

theorem leadMatch_iff {n h : List Char} :
    leadMatch n h = true ↔ ∃ t, h = n ++ t := by
  induction n generalizing h with
  | nil => simp [leadMatch]
  | cons a as ih =>
    cases h with
    | nil => simp [leadMatch]
    | cons b bs =>
      simp only [leadMatch, Bool.and_eq_true, decide_eq_true_eq, ih, List.cons_append,
        List.cons.injEq]
      constructor
      · rintro ⟨rfl, t, rfl⟩
        exact ⟨t, rfl, rfl⟩
      · rintro ⟨t, rfl, rfl⟩
        exact ⟨rfl, t, rfl⟩

theorem segIn_iff {n h : List Char} :
    segIn n h = true ↔ ∃ p t, h = p ++ n ++ t := by
  induction h with
  | nil =>
    simp only [segIn, List.isEmpty_iff]
    constructor
    · rintro rfl
      exact ⟨[], [], rfl⟩
    · rintro ⟨p, t, he⟩
      rcases List.append_eq_nil.mp (List.append_eq_nil.mp he.symm).1 with ⟨_, h2⟩
      exact h2
  | cons c cs ih =>
    simp only [segIn, Bool.or_eq_true, leadMatch_iff, ih]
    constructor
    · rintro (⟨t, he⟩ | ⟨p, t, he⟩)
      · exact ⟨[], t, by simpa using he⟩
      · exact ⟨c :: p, t, by simp [he]⟩
    · rintro ⟨p, t, he⟩
      cases p with
      | nil =>
        left
        exact ⟨t, by simpa using he⟩
      | cons x xs =>
        right
        simp only [List.cons_append, List.cons.injEq] at he
        exact ⟨xs, t, he.2⟩

theorem strContains_iff {needle hay : String} :
    strContains needle hay = true ↔ ∃ p t, hay.data = p ++ needle.data ++ t :=
  segIn_iff

/-! ## Infrastructure lemmas: structure of a rendered box -/

theorem noNL_indent_piece {piece : String} (h : noNL piece) : noNL (childIndent ++ piece) :=
  noNL_append (by decide) h

theorem noNL_hbar (n : Nat) : noNL (String.mk (List.replicate n '─')) := by
  intro hmem
  have := List.eq_of_mem_replicate hmem
  simp at this

theorem noNL_top (n : Nat) : noNL ("╭" ++ String.mk (List.replicate n '─') ++ "╮") :=
  noNL_append (noNL_append (by decide) (noNL_hbar n)) (by decide)

theorem noNL_bot (n : Nat) : noNL ("╰" ++ String.mk (List.replicate n '─') ++ "╯") :=
  noNL_append (noNL_append (by decide) (noNL_hbar n)) (by decide)

theorem noNL_row {l : String} (hl : noNL l) (k : Nat) :
    noNL ("│ " ++ l ++ spaces k ++ " │") :=
  noNL_append (noNL_append (noNL_append (by decide) hl) (noNL_spaces k)) (by decide)

theorem flatten_splitNL_ne_nil {entries : List String} (h : entries ≠ []) :
    (entries.map splitNL).flatten ≠ [] := by
  cases entries with
  | nil => exact absurd rfl h
  | cons e rest =>
    simp only [List.map_cons, List.flatten_cons]
    intro hc
    exact splitNL_ne_nil e (List.append_eq_nil.mp hc).1

theorem noNL_of_mem_flatten_splitNL {entries : List String} {l : String}
    (hl : l ∈ (entries.map splitNL).flatten) : noNL l := by
  rcases List.mem_flatten.mp hl with ⟨ls, hls, hmem⟩
  rcases List.mem_map.mp hls with ⟨e, _, rfl⟩
  exact noNL_of_mem_splitNL hmem

/-- The line structure of `boxRender (joinVertical entries)`:
a top border, one bordered-and-padded row for every line of every entry
(in order), and a bottom border. -/
theorem splitNL_box_joinVertical (e1 e2 : String) (rest : List String) :
    ∃ w,
      (∀ l ∈ ((e1 :: e2 :: rest).map splitNL).flatten, strWidth l ≤ w) ∧
      splitNL (boxRender (joinVertical (e1 :: e2 :: rest)))
        = ("╭" ++ String.mk (List.replicate (w + 2) '─') ++ "╮")
          :: (((e1 :: e2 :: rest).map splitNL).flatten.map
                (fun l => "│ " ++ l ++ spaces (w - strWidth l) ++ " │"))
          ++ ["╰" ++ String.mk (List.replicate (w + 2) '─') ++ "╯"] := by
  set entries := e1 :: e2 :: rest with hentries
  set cls := (entries.map splitNL).flatten with hcls
  have hclsne : cls ≠ [] := flatten_splitNL_ne_nil (by simp [hentries])
  have hclsnoNL : ∀ l ∈ cls, noNL l := fun l hl => noNL_of_mem_flatten_splitNL hl
  set w := maxWidth cls with hw
  refine ⟨w, fun l hl => strWidth_le_maxWidth hl, ?_⟩
  set padded := cls.map (fun l => l ++ spaces (w - strWidth l)) with hpadded
  have hjv : joinVertical entries = joinNL padded := rfl
  have hpad_noNL : ∀ l ∈ padded, noNL l := by
    intro l hl
    rcases List.mem_map.mp hl with ⟨x, hx, rfl⟩
    exact noNL_append (hclsnoNL x hx) (noNL_spaces _)
  have hpadne : padded ≠ [] := by
    intro hc
    exact hclsne (List.map_eq_nil_iff.mp hc)
  have hsplit : splitNL (joinNL padded) = padded := splitNL_joinNL hpad_noNL hpadne
  have hpadw : ∀ l ∈ padded, strWidth l = w := by
    intro l hl
    rcases List.mem_map.mp hl with ⟨x, hx, rfl⟩
    exact strWidth_pad (strWidth_le_maxWidth hx)
  have hmaxpad : maxWidth padded = w := maxWidth_of_all_eq hpadne hpadw
  show splitNL (boxRender (joinVertical entries)) = _
  rw [hjv]
  show splitNL (joinNL
    (("╭" ++ String.mk (List.replicate (maxWidth (splitNL (joinNL padded)) + 2) '─') ++ "╮")
      :: (splitNL (joinNL padded)).map
          (fun l => "│ " ++ l ++ spaces (maxWidth (splitNL (joinNL padded)) - strWidth l) ++ " │")
      ++ ["╰" ++ String.mk (List.replicate (maxWidth (splitNL (joinNL padded)) + 2) '─') ++ "╯"]))
    = _
  rw [hsplit, hmaxpad]
  have hrows : padded.map (fun l => "│ " ++ l ++ spaces (w - strWidth l) ++ " │")
      = cls.map (fun l => "│ " ++ l ++ spaces (w - strWidth l) ++ " │") := by
    rw [hpadded, List.map_map]
    apply List.map_congr_left
    intro l hl
    have hle : strWidth l ≤ w := strWidth_le_maxWidth hl
    have hwpad : strWidth (l ++ spaces (w - strWidth l)) = w := strWidth_pad hle
    simp only [Function.comp_apply]
    rw [hwpad, Nat.sub_self, spaces_zero, append_empty_str]
    simp only [str_append_assoc]
  rw [hrows]
  apply splitNL_joinNL
  · intro x hx
    rcases List.mem_cons.mp hx with rfl | hx
    · exact noNL_top _
    · rcases List.mem_append.mp hx with hx | hx
      · rcases List.mem_map.mp hx with ⟨l, hl, rfl⟩
        exact noNL_row (hclsnoNL l hl) _
      · rcases List.mem_singleton.mp hx with rfl
        exact noNL_bot _
  · simp

theorem splitNL_indentAllLines (s : String) (ind : String) (hind : noNL ind) :
    splitNL (indentAllLines s ind) = (splitNL s).map (fun l => ind ++ l) := by
  unfold indentAllLines
  apply splitNL_joinNL
  · intro x hx
    rcases List.mem_map.mp hx with ⟨l, hl, rfl⟩
    exact noNL_append hind (noNL_of_mem_splitNL hl)
  · intro hc
    exact splitNL_ne_nil s (List.map_eq_nil_iff.mp hc)

/-- The entry list of `buildSpanBox` starts with the name and trace-id lines. -/
theorem spanEntries_eq_cons (s : SpanStub) :
    ∃ rest, spanEntries s
      = joinLabelValue "Span Name:" s.name
        :: joinLabelValue "TraceID:" (tidString s.traceID) :: rest :=
  ⟨_, rfl⟩

theorem flatten_map_splitNL_append (xs ys : List String) :
    ((xs ++ ys).map splitNL).flatten
      = (xs.map splitNL).flatten ++ (ys.map splitNL).flatten := by
  rw [List.map_append, List.flatten_append]

/-- Every rendered span box starts with a top border line. -/
theorem buildSpanBoxF_head {fuel : Nat} {s : SpanStub} {m : CMap} {b : String}
    (h : buildSpanBoxF fuel s m = some b) :
    ∃ n rest, splitNL b = ("╭" ++ String.mk (List.replicate n '─') ++ "╮") :: rest := by
  cases fuel with
  | zero => cases h
  | succ f =>
    rw [buildSpanBoxF_succ] at h
    cases hmm : mapMOpt (fun c => buildSpanBoxF f c m) (mapGet m (sidString s.spanID)) with
    | none => rw [hmm, optBind_none] at h; cases h
    | some childBoxes =>
      rw [hmm, optBind_some] at h
      cases h
      rcases spanEntries_eq_cons s with ⟨restF, hF⟩
      rw [hF]
      rcases splitNL_box_joinVertical (joinLabelValue "Span Name:" s.name)
        (joinLabelValue "TraceID:" (tidString s.traceID))
        (restF ++ childBoxes.map (fun b => indentAllLines b childIndent)) with ⟨w, _, hsplit⟩
      rw [show (joinLabelValue "Span Name:" s.name
            :: joinLabelValue "TraceID:" (tidString s.traceID) :: restF)
            ++ childBoxes.map (fun b => indentAllLines b childIndent)
          = joinLabelValue "Span Name:" s.name
            :: joinLabelValue "TraceID:" (tidString s.traceID)
            :: (restF ++ childBoxes.map (fun b => indentAllLines b childIndent)) by simp]
      rw [hsplit]
      exact ⟨w + 2, _, rfl⟩

/-- C4, proved form: every line of the child's indented block appears, in
order on consecutive lines, inside the parent's block; the parent's border
and padding surround each line. -/
theorem childBlock_lines_in_parent (fuel : Nat) (s child : SpanStub) (m : CMap)
    (pb cb : String)
    (hchild : child ∈ mapGet m (sidString s.spanID))
    (hpb : buildSpanBoxF (fuel + 1) s m = some pb)
    (hcb : buildSpanBoxF fuel child m = some cb) :
    ∃ w pre post, splitNL pb
      = pre ++ (splitNL (indentAllLines cb childIndent)).map
          (fun l => "│ " ++ l ++ spaces (w - strWidth l) ++ " │") ++ post := by
  rw [buildSpanBoxF_succ] at hpb
  cases hmm : mapMOpt (fun c => buildSpanBoxF fuel c m) (mapGet m (sidString s.spanID)) with
  | none => rw [hmm, optBind_none] at hpb; cases hpb
  | some childBoxes =>
    rw [hmm, optBind_some] at hpb
    cases hpb
    rcases List.append_of_mem hchild with ⟨x1, x2, hbucket⟩
    rw [hbucket] at hmm
    rcases mapMOpt_append_cons hmm with ⟨r1, rc, r2, hcbs, hfc, _, _⟩
    have hrc : rc = cb := by
      rw [hcb] at hfc
      injection hfc with h
      exact h.symm
    rw [hrc] at hcbs
    subst hcbs
    rcases spanEntries_eq_cons s with ⟨restF, hF⟩
    set ind := fun b => indentAllLines b childIndent with hind
    have hashape : spanEntries s ++ (r1 ++ cb :: r2).map ind
        = joinLabelValue "Span Name:" s.name
          :: joinLabelValue "TraceID:" (tidString s.traceID)
          :: ((restF ++ r1.map ind) ++ ind cb :: r2.map ind) := by
      rw [hF]
      simp
    rw [hashape]
    rcases splitNL_box_joinVertical (joinLabelValue "Span Name:" s.name)
      (joinLabelValue "TraceID:" (tidString s.traceID))
      ((restF ++ r1.map ind) ++ ind cb :: r2.map ind) with ⟨w, _, hsplit⟩
    rw [hsplit]
    set row := fun l => "│ " ++ l ++ spaces (w - strWidth l) ++ " │" with hrow
    set hd := joinLabelValue "Span Name:" s.name with hhd
    set hd2 := joinLabelValue "TraceID:" (tidString s.traceID) with hhd2
    have hflat : ((hd :: hd2 :: ((restF ++ r1.map ind) ++ ind cb :: r2.map ind)).map
          splitNL).flatten
        = (splitNL hd ++ splitNL hd2 ++ ((restF ++ r1.map ind).map splitNL).flatten)
          ++ splitNL (ind cb) ++ ((r2.map ind).map splitNL).flatten := by
      simp [List.flatten_append, List.append_assoc]
    rw [hflat]
    refine ⟨w, ("╭" ++ String.mk (List.replicate (w + 2) '─') ++ "╮")
        :: (splitNL hd ++ splitNL hd2 ++ ((restF ++ r1.map ind).map splitNL).flatten).map row,
      (((r2.map ind).map splitNL).flatten).map row
        ++ ["╰" ++ String.mk (List.replicate (w + 2) '─') ++ "╯"], ?_⟩
    simp [List.map_append, List.append_assoc]

/-! ## Infrastructure lemmas: the attributes section (C5) -/

/-- The two styles render identically (ASCII profile), so classification
cannot change a bullet's text. -/
theorem attrEntry_eq (kv : String × AttrVal) :
    attrEntry kv = childIndent ++ ("• " ++ kv.1 ++ " = " ++ kv.2.display) := by
  unfold attrEntry
  split <;> rfl

theorem spanEntries_attr_decomp (s : SpanStub) :
    ∃ mid, spanEntries s
      = joinLabelValue "Span Name:" s.name
        :: joinLabelValue "TraceID:" (tidString s.traceID)
        :: (mid ++ "Attributes:" :: s.attributes.map attrEntry) := by
  refine ⟨joinLabelValue "SpanID:" (sidString s.spanID)
    :: (if sidValid s.parentID then [joinLabelValue "ParentSpan:" (sidString s.parentID)]
        else [])
    ++ [joinLabelValue "Start Time:" (formatTime s.startTime),
        joinLabelValue "End Time:" (formatTime s.endTime),
        joinLabelValue "Duration:" (durationString (s.endTime - s.startTime))], ?_⟩
  unfold spanEntries
  simp [labelStyleRender, List.append_assoc]

theorem flatten_splitNL_of_noNL {xs : List String} (h : ∀ x ∈ xs, noNL x) :
    (xs.map splitNL).flatten = xs := by
  induction xs with
  | nil => rfl
  | cons x rest ih =>
    simp only [List.map_cons, List.flatten_cons]
    rw [splitNL_of_noNL (h x (List.mem_cons_self _ _)),
      ih (fun y hy => h y (List.mem_cons_of_mem _ hy))]
    rfl

theorem mapMOpt_eq_some_cons {f : α → Option β} {l : List α} {b : β} {bs : List β}
    (h : mapMOpt f l = some (b :: bs)) :
    ∃ a as, l = a :: as ∧ f a = some b ∧ mapMOpt f as = some bs := by
  cases l with
  | nil => cases h
  | cons a as =>
    rw [mapMOpt_cons_eq] at h
    cases hfa : f a with
    | none => rw [hfa, optBind_none] at h; cases h
    | some b' =>
      rw [hfa, optBind_some] at h
      cases hrest : mapMOpt f as with
      | none => rw [hrest, optBind_none] at h; cases h
      | some bs' =>
        rw [hrest, optBind_some] at h
        injection h with h
        injection h with h1 h2
        exact ⟨a, as, rfl, h1 ▸ hfa, h2 ▸ hrest⟩

theorem notMem_char_append {c : Char} {a b : List Char} (ha : c ∉ a) (hb : c ∉ b) :
    c ∉ a ++ b := by
  intro h
  rcases List.mem_append.mp h with h | h
  · exact ha h
  · exact hb h

theorem bullet_notMem_hbar (n : Nat) : '•' ∉ List.replicate n '─' := by
  intro h
  have := List.eq_of_mem_replicate h
  simp at this

theorem bullet_notMem_spaces (n : Nat) : '•' ∉ (spaces n).data := by
  intro h
  have := List.eq_of_mem_replicate h
  simp at this

/-- The bottom border contains no bullet. -/
theorem bullet_notMem_bot (n : Nat) :
    '•' ∉ ("╰" ++ String.mk (List.replicate n '─') ++ "╯").data := by
  rw [append_data, append_data]
  exact notMem_char_append (notMem_char_append (by decide) (bullet_notMem_hbar n)) (by decide)

/-- A bordered row whose content is an indented top border contains no
bullet. -/
theorem bullet_notMem_border_row (n k : Nat) :
    '•' ∉ ("│ " ++ (childIndent ++ ("╭" ++ String.mk (List.replicate n '─') ++ "╮"))
      ++ spaces k ++ " │").data := by
  rw [append_data, append_data, append_data, append_data, append_data]
  refine notMem_char_append (notMem_char_append (notMem_char_append (by decide)
    (notMem_char_append (by decide)
      (notMem_char_append (notMem_char_append (by decide) (bullet_notMem_hbar n)) (by decide))))
    (bullet_notMem_spaces k)) (by decide)

/-- C5, proved form: inside a rendered span block the `Attributes:` header
row is followed by exactly one bordered row per attribute, in input order,
each containing the bullet `• key = value` verbatim; the next row carries no
bullet (in particular, zero attributes put no bullet under the header). -/
theorem attributes_section_in_block (fuel : Nat) (s : SpanStub) (m : CMap) (pb : String)
    (hpb : buildSpanBoxF (fuel + 1) s m = some pb)
    (hattr : ∀ kv ∈ s.attributes, noNL (attrEntry kv)) :
    ∃ w pre nextLine post,
      splitNL pb
        = pre ++ ("│ " ++ "Attributes:" ++ spaces (w - strWidth "Attributes:") ++ " │")
            :: (s.attributes.map (fun kv =>
                  "│ " ++ attrEntry kv ++ spaces (w - strWidth (attrEntry kv)) ++ " │"))
            ++ nextLine :: post
        ∧ '•' ∉ nextLine.data
        ∧ ∀ kv ∈ s.attributes,
            strContains ("• " ++ kv.1 ++ " = " ++ kv.2.display)
              ("│ " ++ attrEntry kv ++ spaces (w - strWidth (attrEntry kv)) ++ " │")
              = true := by
  rw [buildSpanBoxF_succ] at hpb
  cases hmm : mapMOpt (fun c => buildSpanBoxF fuel c m) (mapGet m (sidString s.spanID)) with
  | none => rw [hmm, optBind_none] at hpb; cases hpb
  | some childBoxes =>
    rw [hmm, optBind_some] at hpb
    cases hpb
    rcases spanEntries_attr_decomp s with ⟨mid, hdecomp⟩
    set ind := fun b => indentAllLines b childIndent with hind
    set hd := joinLabelValue "Span Name:" s.name with hhd
    set hd2 := joinLabelValue "TraceID:" (tidString s.traceID) with hhd2
    have hashape : spanEntries s ++ childBoxes.map ind
        = hd :: hd2 :: ((mid ++ "Attributes:" :: s.attributes.map attrEntry)
            ++ childBoxes.map ind) := by
      rw [hdecomp]
      simp
    rw [hashape]
    rcases splitNL_box_joinVertical hd hd2
      ((mid ++ "Attributes:" :: s.attributes.map attrEntry) ++ childBoxes.map ind)
      with ⟨w, _, hsplit⟩
    rw [hsplit]
    set row := fun l => "│ " ++ l ++ spaces (w - strWidth l) ++ " │" with hrow
    have hbullets : ((s.attributes.map attrEntry).map splitNL).flatten
        = s.attributes.map attrEntry := flatten_splitNL_of_noNL (by
      intro x hx
      rcases List.mem_map.mp hx with ⟨kv, hkv, rfl⟩
      exact hattr kv hkv)
    have hflat : ((hd :: hd2 :: ((mid ++ "Attributes:" :: s.attributes.map attrEntry)
          ++ childBoxes.map ind)).map splitNL).flatten
        = (splitNL hd ++ splitNL hd2 ++ (mid.map splitNL).flatten)
          ++ "Attributes:" :: (s.attributes.map attrEntry
              ++ ((childBoxes.map ind).map splitNL).flatten) := by
      simp only [List.map_cons, List.flatten_cons, List.map_append, List.flatten_append]
      rw [splitNL_of_noNL (show noNL "Attributes:" by decide), hbullets]
      simp [List.append_assoc]
    rw [hflat]
    have hbulletContains : ∀ kv ∈ s.attributes,
        strContains ("• " ++ kv.1 ++ " = " ++ kv.2.display)
          ("│ " ++ attrEntry kv ++ spaces (w - strWidth (attrEntry kv)) ++ " │") = true := by
      intro kv _
      apply strContains_iff.mpr
      refine ⟨"│ ".data ++ childIndent.data,
        (spaces (w - strWidth (attrEntry kv))).data ++ " │".data, ?_⟩
      rw [append_data, append_data, append_data, attrEntry_eq, append_data]
      simp [List.append_assoc]
    set A := (splitNL hd ++ splitNL hd2 ++ (mid.map splitNL).flatten) with hA
    cases hcb : childBoxes with
    | nil =>
      refine ⟨w, ("╭" ++ String.mk (List.replicate (w + 2) '─') ++ "╮") :: A.map row,
        "╰" ++ String.mk (List.replicate (w + 2) '─') ++ "╯", [], ?_,
        bullet_notMem_bot (w + 2), hbulletContains⟩
      subst hcb
      simp only [List.map_nil, List.flatten_nil, List.append_nil, List.map_append,
        List.map_cons, List.map_map]
      simp [List.append_assoc, hrow]
    | cons cb1 restcb =>
      subst hcb
      rcases mapMOpt_eq_some_cons hmm with ⟨c1, crest, _, hc1, _⟩
      rcases buildSpanBoxF_head hc1 with ⟨n, rest1, hhead⟩
      have hindcb : splitNL (ind cb1)
          = (childIndent ++ ("╭" ++ String.mk (List.replicate n '─') ++ "╮"))
            :: rest1.map (fun l => childIndent ++ l) := by
        rw [hind]
        rw [splitNL_indentAllLines cb1 childIndent (by decide), hhead]
        rfl
      refine ⟨w, ("╭" ++ String.mk (List.replicate (w + 2) '─') ++ "╮") :: A.map row,
        row (childIndent ++ ("╭" ++ String.mk (List.replicate n '─') ++ "╮")),
        (rest1.map (fun l => childIndent ++ l)
          ++ (((restcb.map ind).map splitNL).flatten)).map row
          ++ ["╰" ++ String.mk (List.replicate (w + 2) '─') ++ "╯"], ?_,
        bullet_notMem_border_row n _, hbulletContains⟩
      simp only [List.map_cons, List.flatten_cons, hindcb]
      simp [List.append_assoc, hrow, List.map_map]

/-! ## Infrastructure lemmas: orphaned spans (C3) -/

/-- C3, proved form: removing a span whose (valid) parent id matches no
rendered span's id does not change the output of `PrintSpanTree` at all —
the span is dropped silently (and, the embedding being total, no error is
possible). -/
theorem printSpanTree_drops_orphan (fuel : Nat) (l1 l2 : List SpanStub) (o : SpanStub)
    (hvalid : sidValid o.parentID = true)
    (hnot : ∀ t ∈ renderedSpans fuel (l1 ++ o :: l2),
      sidString t.spanID ≠ sidString o.parentID) :
    printSpanTree fuel (l1 ++ o :: l2) = printSpanTree fuel (l1 ++ l2) := by
  have hroots : rootsOf (l1 ++ o :: l2) = rootsOf (l1 ++ l2) := by
    rw [rootsOf_eq_filter, rootsOf_eq_filter, List.filter_append, List.filter_append,
      List.filter_cons]
    simp [hvalid]
  have hbucket : ∀ k, k ≠ sidString o.parentID →
      mapGet (childrenMapOf (l1 ++ o :: l2)) k = mapGet (childrenMapOf (l1 ++ l2)) k := by
    intro k hk
    rw [mapGet_childrenMapOf, mapGet_childrenMapOf, mapGet_childrenMapRaw,
      mapGet_childrenMapRaw, List.filter_append, List.filter_append, List.filter_cons]
    have hbeq : (sidString o.parentID == k) = false :=
      beq_eq_false_iff_ne.mpr (fun h => hk h.symm)
    simp [hbeq]
  have hmaps : ∀ r ∈ sortSpans (rootsOf (l1 ++ o :: l2)),
      buildSpanBoxF fuel r (childrenMapOf (l1 ++ o :: l2))
        = buildSpanBoxF fuel r (childrenMapOf (l1 ++ l2)) := by
    intro r hr
    apply buildSpanBoxF_congr
    intro k hk
    rcases List.mem_map.mp hk with ⟨t, ht, rfl⟩
    apply hbucket
    apply hnot
    unfold renderedSpans
    exact List.mem_flatten.mpr ⟨_, List.mem_map_of_mem _ hr, ht⟩
  by_cases hempty : l1 ++ l2 = []
  · rcases List.append_eq_nil.mp hempty with ⟨rfl, rfl⟩
    have hr0 : rootsOf ([] ++ o :: []) = [] := by
      rw [rootsOf_eq_filter]
      simp [hvalid]
    show printSpanTree fuel [o] = printSpanTree fuel []
    have h1 : printSpanTree fuel [o] = some "" := by
      unfold printSpanTree printSpanTreeOrd
      rw [if_neg (by simp)]
      have : rootsOf [o] = [] := hr0
      rw [this, sortSpans_nil]
      rfl
    have h2 : printSpanTree fuel [] = some "" := rfl
    rw [h1, h2]
  · unfold printSpanTree printSpanTreeOrd
    rw [if_neg (by simp), if_neg (by simp only [List.length_eq_zero]; exact hempty)]
    show (mapMOpt (fun r => buildSpanBoxF fuel r (childrenMapOf (l1 ++ o :: l2)))
        (sortSpans (rootsOf (l1 ++ o :: l2)))).map _
      = (mapMOpt (fun r => buildSpanBoxF fuel r (childrenMapOf (l1 ++ l2)))
        (sortSpans (rootsOf (l1 ++ l2)))).map _
    rw [mapMOpt_congr hmaps, hroots]

/-! ## Infrastructure lemmas: recursion depth and termination (C7) -/

theorem spanDepth_succ (fuel : Nat) (s : SpanStub) (m : CMap) :
    spanDepth (fuel + 1) s m
      = Option.bind (mapMOpt (fun c => spanDepth fuel c m) (mapGet m (sidString s.spanID)))
          (fun ds => some (1 + ds.foldl max 0)) := rfl

theorem isSome_bind_some {x : Option α} {g : α → β} :
    (Option.bind x (fun y => some (g y))).isSome = x.isSome := by
  cases x <;> rfl

/-- Under a rank function, each child of `s` in the map has smaller rank. -/
theorem rank_child_lt {m : CMap} {rank : String → Nat} (hR : RankedMap m rank)
    (s : SpanStub) :
    ∀ c ∈ mapGet m (sidString s.spanID),
      rank (sidString c.spanID) < rank (sidString s.spanID) := by
  intro c hc
  have hne : mapGet m (sidString s.spanID) ≠ [] := by
    intro h
    rw [h] at hc
    cases hc
  rcases mem_of_mapGet_ne_nil hne with ⟨e, he, h1, h2⟩
  have := hR e he c (by rw [h2]; exact hc)
  rw [h1] at this
  exact this

/-- One step of the depth characterisation: if every child has a
characterised depth at most `n`, the span has a characterised depth at most
`n + 1`, and the renderer needs exactly that much fuel. -/
theorem depth_char_step {m : CMap} {s : SpanStub} {n : Nat}
    (hch : ∀ c ∈ mapGet m (sidString s.spanID),
      ∃ d, d ≤ n ∧ 1 ≤ d ∧
        (∀ f, spanDepth f c m = if d ≤ f then some d else none) ∧
        (∀ f, (buildSpanBoxF f c m).isSome ↔ d ≤ f)) :
    ∃ d, d ≤ n + 1 ∧ 1 ≤ d ∧
      (∀ f, spanDepth f s m = if d ≤ f then some d else none) ∧
      (∀ f, (buildSpanBoxF f s m).isSome ↔ d ≤ f) := by
  set bucket := mapGet m (sidString s.spanID) with hbucket
  set ds := bucket.map (fun c => (spanDepth n c m).getD 0) with hds
  set d := 1 + ds.foldl max 0 with hd
  have hpt : ∀ c ∈ bucket,
      ((spanDepth n c m).getD 0) ≤ n ∧ 1 ≤ ((spanDepth n c m).getD 0) ∧
      (∀ f, spanDepth f c m = if ((spanDepth n c m).getD 0) ≤ f
          then some ((spanDepth n c m).getD 0) else none) ∧
      (∀ f, (buildSpanBoxF f c m).isSome ↔ ((spanDepth n c m).getD 0) ≤ f) := by
    intro c hc
    rcases hch c hc with ⟨dc, h1, h2, h3, h4⟩
    have hv : spanDepth n c m = some dc := by rw [h3, if_pos h1]
    simp only [hv, Option.getD_some]
    exact ⟨h1, h2, h3, h4⟩
  have hboundds : ∀ x ∈ ds, x ≤ n := by
    intro x hx
    rcases List.mem_map.mp hx with ⟨c, hc, rfl⟩
    exact (hpt c hc).1
  have hfold_le_n : ds.foldl max 0 ≤ n :=
    foldl_max_le_iff.mpr ⟨Nat.zero_le n, hboundds⟩
  have h1le : 1 ≤ d := Nat.le_add_right 1 _
  refine ⟨d, by omega, h1le, ?_, ?_⟩
  · intro f
    cases f with
    | zero =>
      rw [if_neg (by omega)]
      rfl
    | succ f' =>
      by_cases hle : d ≤ f' + 1
      · rw [if_pos hle]
        have hf' : ds.foldl max 0 ≤ f' := by omega
        have hsome : mapMOpt (fun c => spanDepth f' c m) bucket = some ds := by
          rw [hds]
          apply mapMOpt_eq_some_map
          intro c hc
          have hcle : (spanDepth n c m).getD 0 ≤ f' := by
            have hmem : (spanDepth n c m).getD 0 ∈ ds := by
              rw [hds]
              exact List.mem_map_of_mem _ hc
            exact le_trans (le_foldl_max _ hmem) hf'
          rw [(hpt c hc).2.2.1 f', if_pos hcle]
        rw [spanDepth_succ, ← hbucket, hsome, optBind_some]
      · rw [if_neg hle]
        have hf' : ¬ ds.foldl max 0 ≤ f' := by omega
        have hex : ∃ x ∈ ds, ¬ x ≤ f' := by
          by_contra hno
          push_neg at hno
          exact hf' (foldl_max_le_iff.mpr
            ⟨Nat.zero_le _, fun x hx => Nat.le_of_lt_succ (Nat.lt_succ_of_le (hno x hx))⟩)
        rcases hex with ⟨x, hx, hxgt⟩
        rcases List.mem_map.mp hx with ⟨c, hc, rfl⟩
        have hnone : spanDepth f' c m = none := by
          rw [(hpt c hc).2.2.1 f', if_neg hxgt]
        rw [spanDepth_succ, ← hbucket, mapMOpt_eq_none hc hnone, optBind_none]
  · intro f
    cases f with
    | zero =>
      show (none : Option String).isSome = true ↔ d ≤ 0
      constructor
      · intro h
        exact absurd h (by decide)
      · intro h
        exact absurd h (by omega)
    | succ f' =>
      rw [buildSpanBoxF_succ, isSome_bind_some, ← hbucket]
      rw [Bool.eq_iff_iff.mp rfl]
      constructor
      · intro hall
        have hall' := mapMOpt_isSome_iff.mp hall
        have hle : ∀ x ∈ ds, x ≤ f' := by
          intro x hx
          rcases List.mem_map.mp hx with ⟨c, hc, rfl⟩
          exact ((hpt c hc).2.2.2 f').mp (hall' c hc)
        have : ds.foldl max 0 ≤ f' := foldl_max_le_iff.mpr ⟨Nat.zero_le _, hle⟩
        omega
      · intro hle
        apply mapMOpt_isSome_iff.mpr
        intro c hc
        apply ((hpt c hc).2.2.2 f').mpr
        have hmem : (spanDepth n c m).getD 0 ∈ ds := by
          rw [hds]
          exact List.mem_map_of_mem _ hc
        have : ds.foldl max 0 ≤ f' := by omega
        exact le_trans (le_foldl_max _ hmem) this

/-- The depth characterisation: with an acyclicity rank, each span has a
well-defined tree depth `d` (at most its rank + 1); the depth computation
succeeds exactly at fuel ≥ `d`, and the renderer terminates exactly at
recursion depth ≥ `d`. -/
theorem spanDepth_char {m : CMap} {rank : String → Nat} (hR : RankedMap m rank)
    (s : SpanStub) :
    ∃ d, d ≤ rank (sidString s.spanID) + 1 ∧ 1 ≤ d ∧
      (∀ f, spanDepth f s m = if d ≤ f then some d else none) ∧
      (∀ f, (buildSpanBoxF f s m).isSome ↔ d ≤ f) := by
  suffices H : ∀ n s, rank (sidString s.spanID) ≤ n →
      ∃ d, d ≤ rank (sidString s.spanID) + 1 ∧ 1 ≤ d ∧
        (∀ f, spanDepth f s m = if d ≤ f then some d else none) ∧
        (∀ f, (buildSpanBoxF f s m).isSome ↔ d ≤ f) by
    exact H _ s le_rfl
  intro n
  induction n with
  | zero =>
    intro s hs
    have h0 : ∀ c ∈ mapGet m (sidString s.spanID), False := by
      intro c hc
      have := rank_child_lt hR s c hc
      omega
    rcases depth_char_step (n := rank (sidString s.spanID))
      (fun c hc => absurd hc (fun h => h0 c h)) with ⟨d, h1, h2, h3, h4⟩
    exact ⟨d, h1, h2, h3, h4⟩
  | succ n ihn =>
    intro s hs
    apply depth_char_step (n := rank (sidString s.spanID))
    intro c hc
    have hlt := rank_child_lt hR s c hc
    rcases ihn c (by omega) with ⟨d, hd1, hd2, hd3, hd4⟩
    exact ⟨d, by omega, hd2, hd3, hd4⟩

/-! ## Infrastructure lemmas: `sort.Slice` permutes its input

Every mutation of the Go sort is a swap, so a completed run is a
permutation of the input slice. -/

section GoSortPerm

variable {α : Type} [Inhabited α]

theorem get_set_cons_perm (a : α) :
    ∀ (t : List α) (m : Nat), m < t.length →
      (lget t m :: t.set m a).Perm (a :: t) := by
  intro t
  induction t with
  | nil =>
    intro m hm
    cases hm
  | cons b u ih =>
    intro m hm
    cases m with
    | zero =>
      show (b :: a :: u).Perm (a :: b :: u)
      exact List.Perm.swap a b u
    | succ k =>
      have hk : k < u.length := by simpa using hm
      show (lget u k :: b :: u.set k a).Perm (a :: b :: u)
      exact ((List.Perm.swap b (lget u k) _).trans
        (List.Perm.cons b (ih k hk))).trans (List.Perm.swap a b u)

theorem lswap_perm (l : List α) (i j : Nat) : (lswap l i j).Perm l := by
  unfold lswap
  split
  · next h =>
    rcases h with ⟨hi, hj⟩
    induction l generalizing i j with
    | nil => cases hi
    | cons a t ih =>
      cases i with
      | zero =>
        cases j with
        | zero =>
          show ((a :: t).set 0 (lget (a :: t) 0)).set 0 (lget (a :: t) 0) |>.Perm _
          show (lget (a :: t) 0 :: t).Perm (a :: t)
          exact List.Perm.refl _
        | succ m =>
          have hm : m < t.length := by simpa using hj
          show (lget t m :: t.set m (lget (a :: t) 0)).Perm (a :: t)
          exact get_set_cons_perm _ t m hm
      | succ m =>
        cases j with
        | zero =>
          have hm : m < t.length := by simpa using hi
          show (lget t m :: t.set m (lget (a :: t) 0)).Perm (a :: t)
          exact get_set_cons_perm _ t m hm
        | succ k =>
          have hm : m < t.length := by simpa using hi
          have hk : k < t.length := by simpa using hj
          show (a :: (t.set m (lget t k)).set k (lget t m)).Perm (a :: t)
          exact List.Perm.cons a (ih m k hm hk)
  · exact List.Perm.refl _

variable (less : α → α → Bool)

theorem insertionInner_perm :
    ∀ (fuel : Nat) (l : List α) (j a : Nat) (l' : List α),
      insertionInner less fuel l j a = some l' → l'.Perm l
  | 0, _, _, _, _, h => by cases h
  | fuel + 1, l, j, a, l', h => by
    rw [insertionInner] at h
    split at h
    · exact (insertionInner_perm fuel _ _ _ _ h).trans (lswap_perm l _ _)
    · cases h
      exact List.Perm.refl _

theorem insertionOuter_perm :
    ∀ (fuel : Nat) (l : List α) (i a b : Nat) (l' : List α),
      insertionOuter less fuel l i a b = some l' → l'.Perm l
  | 0, _, _, _, _, _, h => by cases h
  | fuel + 1, l, i, a, b, l', h => by
    rw [insertionOuter] at h
    split at h
    · cases hinner : insertionInner less (i + 1) l i a with
      | none => rw [hinner, mbind_none] at h; cases h
      | some l2 =>
        rw [hinner, mbind_some] at h
        exact (insertionOuter_perm fuel _ _ _ _ _ h).trans
          (insertionInner_perm less _ _ _ _ _ hinner)
    · cases h
      exact List.Perm.refl _

theorem insertionSortGo_perm {l : List α} {a b : Nat} {l' : List α}
    (h : insertionSortGo less l a b = some l') : l'.Perm l :=
  insertionOuter_perm less _ _ _ _ _ _ h

theorem siftDownGo_perm :
    ∀ (fuel : Nat) (l : List α) (root hi first : Nat) (l' : List α),
      siftDownGo less fuel l root hi first = some l' → l'.Perm l
  | 0, _, _, _, _, _, h => by cases h
  | fuel + 1, l, root, hi, first, l', h => by
    simp only [siftDownGo] at h
    repeat' split at h
    all_goals first
      | (cases h; exact List.Perm.refl _)
      | exact (siftDownGo_perm fuel _ _ _ _ _ h).trans (lswap_perm l _ _)

theorem heapBuild_perm :
    ∀ (cnt : Nat) (l : List α) (hi first : Nat) (l' : List α),
      heapBuild less cnt l hi first = some l' → l'.Perm l
  | 0, _, _, _, _, h => by
    cases h
    exact List.Perm.refl _
  | cnt + 1, l, hi, first, l', h => by
    rw [heapBuild] at h
    cases hsift : siftDownGo less (hi + 1) l cnt hi first with
    | none => rw [hsift, mbind_none] at h; cases h
    | some l2 =>
      rw [hsift, mbind_some] at h
      exact (heapBuild_perm cnt _ _ _ _ h).trans (siftDownGo_perm less _ _ _ _ _ _ hsift)

theorem heapPop_perm :
    ∀ (cnt : Nat) (l : List α) (first : Nat) (l' : List α),
      heapPop less cnt l first = some l' → l'.Perm l
  | 0, _, _, _, h => by
    cases h
    exact List.Perm.refl _
  | cnt + 1, l, first, l', h => by
    rw [heapPop] at h
    cases hsift : siftDownGo less (cnt + 1) (lswap l first (first + cnt)) 0 cnt first with
    | none => rw [hsift, mbind_none] at h; cases h
    | some l2 =>
      rw [hsift, mbind_some] at h
      exact (heapPop_perm cnt _ _ _ h).trans
        ((siftDownGo_perm less _ _ _ _ _ _ hsift).trans (lswap_perm l _ _))

theorem heapSortGo_perm {l : List α} {a b : Nat} {l' : List α}
    (h : heapSortGo less l a b = some l') : l'.Perm l := by
  simp only [heapSortGo] at h
  cases hb : heapBuild less ((b - a - 1) / 2 + 1) l (b - a) a with
  | none => rw [hb, mbind_none] at h; cases h
  | some l2 =>
    rw [hb, mbind_some] at h
    exact (heapPop_perm less _ _ _ _ h).trans (heapBuild_perm less _ _ _ _ _ hb)

theorem revLoop_perm :
    ∀ (fuel : Nat) (l : List α) (i j : Nat) (l' : List α),
      revLoop fuel l i j = some l' → l'.Perm l
  | 0, _, _, _, _, h => by cases h
  | fuel + 1, l, i, j, l', h => by
    rw [revLoop] at h
    split at h
    · exact (revLoop_perm fuel _ _ _ _ h).trans (lswap_perm l _ _)
    · cases h
      exact List.Perm.refl _

theorem reverseRangeGo_perm {l : List α} {a b : Nat} {l' : List α}
    (h : reverseRangeGo l a b = some l') : l'.Perm l :=
  revLoop_perm _ _ _ _ _ h

theorem breakPatternsGo_perm (l : List α) (a b : Nat) :
    (breakPatternsGo l a b).Perm l := by
  rw [breakPatternsGo]
  split
  · exact ((lswap_perm _ _ _).trans (lswap_perm _ _ _)).trans (lswap_perm _ _ _)
  · exact List.Perm.refl _

theorem pisShiftLeft_perm :
    ∀ (fuel : Nat) (l : List α) (j : Nat) (l' : List α),
      pisShiftLeft less fuel l j = some l' → l'.Perm l
  | 0, _, _, _, h => by cases h
  | fuel + 1, l, j, l', h => by
    rw [pisShiftLeft] at h
    split at h
    · exact (pisShiftLeft_perm fuel _ _ _ h).trans (lswap_perm l _ _)
    · cases h
      exact List.Perm.refl _

theorem pisShiftRight_perm :
    ∀ (fuel : Nat) (l : List α) (j b : Nat) (l' : List α),
      pisShiftRight less fuel l j b = some l' → l'.Perm l
  | 0, _, _, _, _, h => by cases h
  | fuel + 1, l, j, b, l', h => by
    rw [pisShiftRight] at h
    split at h
    · exact (pisShiftRight_perm fuel _ _ _ _ h).trans (lswap_perm l _ _)
    · cases h
      exact List.Perm.refl _

theorem pisLoop_perm :
    ∀ (steps : Nat) (l : List α) (i a b : Nat) (l' : List α) (done : Bool),
      pisLoop less steps l i a b = some (l', done) → l'.Perm l
  | 0, _, _, _, _, _, _, h => by
    cases h
    exact List.Perm.refl _
  | steps + 1, l, i, a, b, l', done, h => by
    simp only [pisLoop] at h
    cases hadv : pisAdvance less (b + 1) l i b with
    | none => rw [hadv, mbind_none] at h; cases h
    | some i' =>
      rw [hadv, mbind_some] at h
      split at h
      · cases h
        exact List.Perm.refl _
      · split at h
        · cases h
          exact List.Perm.refl _
        · split at h
          · cases hleft : pisShiftLeft less (i' + 1) (lswap l i' (i' - 1)) (i' - 1) with
            | none => rw [hleft, mbind_none] at h; cases h
            | some l2 =>
              rw [hleft, mbind_some] at h
              have hperm2 : l2.Perm l :=
                (pisShiftLeft_perm less _ _ _ _ hleft).trans (lswap_perm l _ _)
              split at h
              · cases hright : pisShiftRight less (b + 1) l2 (i' + 1) b with
                | none => rw [hright, mbind_none] at h; cases h
                | some l3 =>
                  rw [hright, mbind_some] at h
                  exact ((pisLoop_perm steps _ _ _ _ _ _ h).trans
                    (pisShiftRight_perm less _ _ _ _ _ hright)).trans hperm2
              · rw [mbind_some] at h
                exact (pisLoop_perm steps _ _ _ _ _ _ h).trans hperm2
          · rw [mbind_some] at h
            have hperm2 : (lswap l i' (i' - 1)).Perm l := lswap_perm l _ _
            split at h
            · cases hright : pisShiftRight less (b + 1) (lswap l i' (i' - 1))
                  (i' + 1) b with
              | none => rw [hright, mbind_none] at h; cases h
              | some l3 =>
                rw [hright, mbind_some] at h
                exact ((pisLoop_perm steps _ _ _ _ _ _ h).trans
                  (pisShiftRight_perm less _ _ _ _ _ hright)).trans hperm2
            · rw [mbind_some] at h
              exact (pisLoop_perm steps _ _ _ _ _ _ h).trans hperm2

theorem partialInsertionSortGo_perm {l : List α} {a b : Nat} {l' : List α} {done : Bool}
    (h : partialInsertionSortGo less l a b = some (l', done)) : l'.Perm l :=
  pisLoop_perm less _ _ _ _ _ _ _ h

theorem partitionLoop_perm :
    ∀ (fuel : Nat) (l : List α) (a i j : Nat) (l' : List α) (mid : Nat) (ap : Bool),
      partitionLoop less fuel l a i j = some (l', mid, ap) → l'.Perm l
  | 0, _, _, _, _, _, _, _, h => by cases h
  | fuel + 1, l, a, i, j, l', mid, ap, h => by
    rw [partitionLoop] at h
    cases hi : partAdvI less (j + 2) l a i j with
    | none => rw [hi, mbind_none] at h; cases h
    | some i' =>
      rw [hi, mbind_some] at h
      cases hj : partAdvJ less (j + 2) l a i' j with
      | none => rw [hj, mbind_none] at h; cases h
      | some j' =>
        rw [hj, mbind_some] at h
        split at h
        · cases h
          exact lswap_perm l _ _
        · exact (partitionLoop_perm fuel _ _ _ _ _ _ _ h).trans (lswap_perm l _ _)

theorem partitionGo_perm {l : List α} {a b pivot : Nat} {l' : List α} {mid : Nat}
    {ap : Bool} (h : partitionGo less l a b pivot = some (l', mid, ap)) : l'.Perm l := by
  simp only [partitionGo] at h
  cases hi : partAdvI less (b + 2) (lswap l a pivot) a (a + 1) (b - 1) with
  | none => rw [hi, mbind_none] at h; cases h
  | some i' =>
    rw [hi, mbind_some] at h
    cases hj : partAdvJ less (b + 2) (lswap l a pivot) a i' (b - 1) with
    | none => rw [hj, mbind_none] at h; cases h
    | some j' =>
      rw [hj, mbind_some] at h
      split at h
      · cases h
        exact ((lswap_perm _ _ _).trans (lswap_perm l _ _))
      · exact ((partitionLoop_perm less _ _ _ _ _ _ _ _ h).trans
          (lswap_perm _ _ _)).trans (lswap_perm l _ _)

theorem partitionEqualLoop_perm :
    ∀ (fuel : Nat) (l : List α) (a i j : Nat) (l' : List α) (mid : Nat),
      partitionEqualLoop less fuel l a i j = some (l', mid) → l'.Perm l
  | 0, _, _, _, _, _, _, h => by cases h
  | fuel + 1, l, a, i, j, l', mid, h => by
    rw [partitionEqualLoop] at h
    cases hi : partEqAdvI less (j + 2) l a i j with
    | none => rw [hi, mbind_none] at h; cases h
    | some i' =>
      rw [hi, mbind_some] at h
      cases hj : partEqAdvJ less (j + 2) l a i' j with
      | none => rw [hj, mbind_none] at h; cases h
      | some j' =>
        rw [hj, mbind_some] at h
        split at h
        · cases h
          exact List.Perm.refl _
        · exact (partitionEqualLoop_perm fuel _ _ _ _ _ _ h).trans (lswap_perm l _ _)

theorem partitionEqualGo_perm {l : List α} {a b pivot : Nat} {l' : List α} {mid : Nat}
    (h : partitionEqualGo less l a b pivot = some (l', mid)) : l'.Perm l :=
  (partitionEqualLoop_perm less _ _ _ _ _ _ _ h).trans (lswap_perm l _ _)

theorem pdqsortGo_perm :
    ∀ (fuel : Nat) (l : List α) (a b limit : Nat) (wb wp : Bool) (l' : List α),
      pdqsortGo less fuel l a b limit wb wp = some l' → l'.Perm l
  | 0, _, _, _, _, _, _, _, h => by cases h
  | fuel + 1, l, a, b, limit, wb, wp, l', h => by
    simp only [pdqsortGo] at h
    split at h
    · exact insertionSortGo_perm less h
    · split at h
      · exact heapSortGo_perm less h
      · set l1 := if wb = true then l else breakPatternsGo l a b with hl1
        have hperm1 : l1.Perm l := by
          rw [hl1]
          split
          · exact List.Perm.refl _
          · exact breakPatternsGo_perm l a b
        split at h
        · cases h
        · next l2 pivot hint heq =>
          have hperm2 : l2.Perm l := by
            split at heq
            · cases hrev : reverseRangeGo l1 a b with
              | none => rw [hrev, optBind_none] at heq; cases heq
              | some lr =>
                rw [hrev, optBind_some] at heq
                cases heq
                exact (reverseRangeGo_perm hrev).trans hperm1
            · cases heq
              exact hperm1
          split at h
          · cases h
          · next l3 sorted heq2 =>
            have hperm3 : l3.Perm l2 := by
              split at heq2
              · exact partialInsertionSortGo_perm less heq2
              · cases heq2
                exact List.Perm.refl _
            split at h
            · cases h
              exact hperm3.trans hperm2
            · split at h
              · split at h
                · cases h
                · next l4 mid hpe =>
                  exact ((pdqsortGo_perm fuel _ _ _ _ _ _ _ h).trans
                    (partitionEqualGo_perm less hpe)).trans (hperm3.trans hperm2)
              · split at h
                · cases h
                · next l4 mid ap hpt =>
                  have hperm4 : l4.Perm l3 := partitionGo_perm less hpt
                  split at h
                  · cases hrec1 : pdqsortGo less fuel l4 a mid
                        (if wb = true then limit else limit - 1) true true with
                    | none => rw [hrec1, optBind_none] at h; cases h
                    | some l5 =>
                      rw [hrec1, optBind_some] at h
                      exact (((pdqsortGo_perm fuel _ _ _ _ _ _ _ h).trans
                        (pdqsortGo_perm fuel _ _ _ _ _ _ _ hrec1)).trans hperm4).trans
                        (hperm3.trans hperm2)
                  · cases hrec1 : pdqsortGo less fuel l4 (mid + 1) b
                        (if wb = true then limit else limit - 1) true true with
                    | none => rw [hrec1, optBind_none] at h; cases h
                    | some l5 =>
                      rw [hrec1, optBind_some] at h
                      exact (((pdqsortGo_perm fuel _ _ _ _ _ _ _ h).trans
                        (pdqsortGo_perm fuel _ _ _ _ _ _ _ hrec1)).trans hperm4).trans
                        (hperm3.trans hperm2)

theorem sortSliceGo_perm {l l' : List α} (h : sortSliceGo less l = some l') :
    l'.Perm l :=
  pdqsortGo_perm less _ _ _ _ _ _ _ _ h

end GoSortPerm

/-- `sort.Slice` of the span list permutes it. -/
theorem sortSpans_perm (l : List SpanStub) : (sortSpans l).Perm l := by
  unfold sortSpans
  cases h : sortSliceGo startBefore l with
  | none => exact List.Perm.refl _
  | some l' => exact sortSliceGo_perm startBefore h

/-- With an acyclicity rank for the children map, `PrintSpanTree` terminates:
some recursion-depth budget renders every root. -/
theorem printSpanTree_isSome {spans : List SpanStub} {rank : String → Nat}
    (hR : RankedMap (childrenMapOf spans) rank) :
    ∃ F, ∀ f, F ≤ f → (printSpanTree f spans).isSome := by
  refine ⟨((sortSpans (rootsOf spans)).map
    (fun r => rank (sidString r.spanID) + 1)).foldl max 0, ?_⟩
  intro f hf
  unfold printSpanTree printSpanTreeOrd
  by_cases h0 : spans.length = 0
  · rw [if_pos h0]
    rfl
  · rw [if_neg h0]
    have hall : ∀ r ∈ sortSpans (rootsOf spans),
        (buildSpanBoxF f r (childrenMapOf spans)).isSome := by
      intro r hr
      rcases spanDepth_char hR r with ⟨d, hd1, _, _, h4⟩
      apply (h4 f).mpr
      have hle : rank (sidString r.spanID) + 1
          ≤ ((sortSpans (rootsOf spans)).map
              (fun r => rank (sidString r.spanID) + 1)).foldl max 0 :=
        le_foldl_max _ (List.mem_map_of_mem _ hr)
      omega
    rcases Option.isSome_iff_exists.mp (mapMOpt_isSome_iff.mpr hall) with ⟨boxes, hboxes⟩
    show ((mapMOpt (fun r => buildSpanBoxF f r
        (sortBuckets (mapKeys (childrenMapRaw spans)) (childrenMapRaw spans)))
        (sortSpans (rootsOf spans))).map _).isSome
    rw [show sortBuckets (mapKeys (childrenMapRaw spans)) (childrenMapRaw spans)
        = childrenMapOf spans from rfl, hboxes]
    rfl

theorem eq_some_getD {x : Option α} (h : x.isSome = true) (d : α) : x = some (x.getD d) := by
  cases x with
  | none => cases h
  | some a => rfl

/-! ## The claims -/

set_option maxRecDepth 20000 in
/-- C1 (code bug): both `sort.Slice` calls are commented
"Sort … by start time for stable ordering", but `sort.Slice` is documented to
be unstable, and it is: on these thirteen parentless spans, where `s1`…`s12`
share one start time and only `s0` starts later, the rendered root order puts
`s6` before `s1`…`s5`, breaking the input order of equal-start-time spans
(the intended call is `sort.SliceStable`).  The last conjunct evaluates the
rendering order of `PrintSpanTree` at this failing input. -/
theorem c1_sortSlice_not_stable :
    unstableSpans.map SpanStub.name
      = ["s0", "s1", "s2", "s3", "s4", "s5", "s6", "s7", "s8", "s9", "s10", "s11", "s12"]
    ∧ (∀ s ∈ unstableSpans, sidValid s.parentID = false)
    ∧ (∀ s ∈ unstableSpans.drop 1, s.startTime = exBase)
    ∧ (unstableSpans.getD 0 default).startTime = exBase + 1
    ∧ (sortSpans (rootsOf unstableSpans)).map SpanStub.name
      = ["s6", "s1", "s2", "s3", "s4", "s5", "s7", "s8", "s9", "s10", "s11", "s12", "s0"]
    ∧ (renderedSpans 5 unstableSpans).map SpanStub.name
      = ["s6", "s1", "s2", "s3", "s4", "s5", "s7", "s8", "s9", "s10", "s11", "s12", "s0"] :=
  ⟨by decide, by decide, by decide, by decide, by decide, by decide⟩

/-- C2: a span is in the root collection of `PrintSpanTree` (also after the
root sort, which permutes it) iff its parent id is invalid, and every span
with a valid parent id is appended to the children-map bucket keyed by that
parent id, in input order. -/
theorem c2_root_set_and_children (spans : List SpanStub) :
    rootsOf spans = spans.filter (fun s => !sidValid s.parentID)
    ∧ (∀ t, t ∈ sortSpans (rootsOf spans) ↔ t ∈ spans ∧ ¬ sidValid t.parentID = true)
    ∧ ∀ k, mapGet (childrenMapRaw spans) k
        = spans.filter (fun s => sidValid s.parentID && (sidString s.parentID == k)) := by
  refine ⟨rootsOf_eq_filter spans, ?_, mapGet_childrenMapRaw spans⟩
  intro t
  rw [(sortSpans_perm (rootsOf spans)).mem_iff, rootsOf_eq_filter, List.mem_filter]
  simp

/-- C3: a span whose valid parent id matches no rendered (root-reachable)
span contributes nothing: the output of `PrintSpanTree` with the span is
byte-identical to the output without it, and (the embedding being total)
no error is produced. -/
theorem c3_orphan_dropped (fuel : Nat) (l1 l2 : List SpanStub) (o : SpanStub)
    (hvalid : sidValid o.parentID = true)
    (hnot : ∀ t ∈ renderedSpans fuel (l1 ++ o :: l2),
      sidString t.spanID ≠ sidString o.parentID) :
    printSpanTree fuel (l1 ++ o :: l2) = printSpanTree fuel (l1 ++ l2) :=
  printSpanTree_drops_orphan fuel l1 l2 o hvalid hnot

set_option maxRecDepth 20000 in
theorem c3_witness :
    printSpanTree 10 ([exRoot, exChild1] ++ exOrphan :: [exChild2, exChild3])
      = printSpanTree 10 ([exRoot, exChild1] ++ [exChild2, exChild3]) :=
  c3_orphan_dropped 10 [exRoot, exChild1] [exChild2, exChild3] exOrphan
    (by decide) (by decide)

set_option maxRecDepth 20000 in
/-- C4 (counterexample): the child's indented block is NOT a contiguous
substring of the parent's block — the parent's border column and padding
intervene at every line break.  Concretely for `exChild2` (parent) and
`exChild3` (child), both blocks render (`isSome`), the child is in the
parent's bucket, and the substring test fails. -/
theorem c4_counterexample :
    exChild3 ∈ mapGet (childrenMapOf exSpans) (sidString exChild2.spanID)
    ∧ (buildSpanBoxF 3 exChild2 (childrenMapOf exSpans)).isSome = true
    ∧ (buildSpanBoxF 2 exChild3 (childrenMapOf exSpans)).isSome = true
    ∧ strContains
        (indentAllLines ((buildSpanBoxF 2 exChild3 (childrenMapOf exSpans)).getD "")
          childIndent)
        ((buildSpanBoxF 3 exChild2 (childrenMapOf exSpans)).getD "") = false :=
  ⟨by decide, by decide, by decide, by decide⟩

/-- C4 (amended): for every parent/child pair of the children mapping, every
line of the child's block, with the fixed indent prefix, appears in order on
consecutive lines of the parent's block; each such line is surrounded only
by the parent's border and padding (`"│ " … " │"`).  The child block as a
whole is not one contiguous substring (see the counterexample). -/
theorem c4_child_lines_contained (fuel : Nat) (s child : SpanStub) (m : CMap)
    (pb cb : String)
    (hchild : child ∈ mapGet m (sidString s.spanID))
    (hpb : buildSpanBoxF (fuel + 1) s m = some pb)
    (hcb : buildSpanBoxF fuel child m = some cb) :
    ∃ w pre post, splitNL pb
      = pre ++ (splitNL (indentAllLines cb childIndent)).map
          (fun l => "│ " ++ l ++ spaces (w - strWidth l) ++ " │") ++ post :=
  childBlock_lines_in_parent fuel s child m pb cb hchild hpb hcb

set_option maxRecDepth 20000 in
theorem c4_witness :
    ∃ w pre post, splitNL ((buildSpanBoxF 3 exChild2 (childrenMapOf exSpans)).getD "")
      = pre ++ (splitNL (indentAllLines
            ((buildSpanBoxF 2 exChild3 (childrenMapOf exSpans)).getD "") childIndent)).map
          (fun l => "│ " ++ l ++ spaces (w - strWidth l) ++ " │") ++ post :=
  c4_child_lines_contained 2 exChild2 exChild3 (childrenMapOf exSpans) _ _
    (by decide) (eq_some_getD (by decide) "") (eq_some_getD (by decide) "")

/-- C5: in every rendered span block the `Attributes:` header row is followed
by exactly one row per attribute, in input order, each containing
`• key = value` verbatim (key and generic display value unchanged); the row
after the last bullet carries no bullet, so zero attributes put the header
with nothing beneath it.  The classifier only selects between two styles
that render the bullet text unchanged, so classification can neither reorder
nor omit attributes (`attrEntry_eq`). -/
theorem c5_attribute_fidelity (fuel : Nat) (s : SpanStub) (m : CMap) (pb : String)
    (hpb : buildSpanBoxF (fuel + 1) s m = some pb)
    (hattr : ∀ kv ∈ s.attributes, noNL (attrEntry kv)) :
    ∃ w pre nextLine post,
      splitNL pb
        = pre ++ ("│ " ++ "Attributes:" ++ spaces (w - strWidth "Attributes:") ++ " │")
            :: (s.attributes.map (fun kv =>
                  "│ " ++ attrEntry kv ++ spaces (w - strWidth (attrEntry kv)) ++ " │"))
            ++ nextLine :: post
        ∧ '•' ∉ nextLine.data
        ∧ ∀ kv ∈ s.attributes,
            strContains ("• " ++ kv.1 ++ " = " ++ kv.2.display)
              ("│ " ++ attrEntry kv ++ spaces (w - strWidth (attrEntry kv)) ++ " │")
              = true :=
  attributes_section_in_block fuel s m pb hpb hattr

set_option maxRecDepth 20000 in
theorem c5_witness :
    ∃ w pre nextLine post,
      splitNL ((buildSpanBoxF 2 exChild2 (childrenMapOf exSpans)).getD "")
        = pre ++ ("│ " ++ "Attributes:" ++ spaces (w - strWidth "Attributes:") ++ " │")
            :: (exChild2.attributes.map (fun kv =>
                  "│ " ++ attrEntry kv ++ spaces (w - strWidth (attrEntry kv)) ++ " │"))
            ++ nextLine :: post
        ∧ '•' ∉ nextLine.data
        ∧ ∀ kv ∈ exChild2.attributes,
            strContains ("• " ++ kv.1 ++ " = " ++ kv.2.display)
              ("│ " ++ attrEntry kv ++ spaces (w - strWidth (attrEntry kv)) ++ " │")
              = true :=
  c5_attribute_fidelity 1 exChild2 (childrenMapOf exSpans) _
    (eq_some_getD (by decide) "") (by decide)

/-- C6: `PrintSpanTree` is deterministic.  It is a pure function of its
input, and the one place Go's unspecified map-iteration order enters — the
`for pid := range childrenMap` sorting loop — is irrelevant: any two
iteration orders (each a permutation of the keys, hence of each other)
produce byte-identical output. -/
theorem c6_iteration_order_irrelevant (fuel : Nat) (spans : List SpanStub)
    (o1 o2 : List String) (hperm : o1.Perm o2) :
    printSpanTreeOrd fuel o1 spans = printSpanTreeOrd fuel o2 spans := by
  unfold printSpanTreeOrd
  rw [sortBuckets_perm hperm]

theorem c6_witness :
    printSpanTreeOrd 10 (mapKeys (childrenMapRaw exSpans)) exSpans
      = printSpanTreeOrd 10 (mapKeys (childrenMapRaw exSpans)).reverse exSpans :=
  c6_iteration_order_irrelevant 10 exSpans _ _
    (List.reverse_perm (mapKeys (childrenMapRaw exSpans))).symm

/-- C7: if the parent/child id graph of the children map is acyclic
(witnessed by a rank that drops along every edge), then every span has a
well-defined tree depth `d`: the depth computation stabilises at `d` for all
fuel ≥ `d` and fails below, and `buildSpanBox` terminates exactly when the
recursion-depth budget reaches `d` — the recursion depth equals the tree
depth; moreover `PrintSpanTree` terminates (some finite budget renders all
roots). -/
theorem c7_termination_depth (spans : List SpanStub) (rank : String → Nat)
    (hR : RankedMap (childrenMapOf spans) rank) :
    (∀ s, ∃ d, 1 ≤ d ∧
       (∀ f, spanDepth f s (childrenMapOf spans) = if d ≤ f then some d else none) ∧
       (∀ f, (buildSpanBoxF f s (childrenMapOf spans)).isSome ↔ d ≤ f))
    ∧ ∃ F, ∀ f, F ≤ f → (printSpanTree f spans).isSome := by
  constructor
  · intro s
    rcases spanDepth_char hR s with ⟨d, _, h2, h3, h4⟩
    exact ⟨d, h2, h3, h4⟩
  · exact printSpanTree_isSome hR

theorem c7_witness :
    (∀ s, ∃ d, 1 ≤ d ∧
       (∀ f, spanDepth f s (childrenMapOf exSpans) = if d ≤ f then some d else none) ∧
       (∀ f, (buildSpanBoxF f s (childrenMapOf exSpans)).isSome ↔ d ≤ f))
    ∧ ∃ F, ∀ f, F ≤ f → (printSpanTree f exSpans).isSome :=
  c7_termination_depth exSpans exRank (by decide)

/-- C8: the default classifier emphasizes exactly the attributes whose key
is one of the three error-indicating keys, or whose value is the string
`"error"` or `"not_found"`. -/
theorem c8_error_classifier (key : String) (val : AttrVal) :
    isErrorAttribute key val = true
      ↔ (key = "error" ∨ key = "error_code" ∨ key = "rpc.connect_rpc.error_code")
        ∨ (∃ s, val = .str s ∧ (s = "error" ∨ s = "not_found")) := by
  unfold isErrorAttribute
  split
  · next hk => simp [hk]
  · next hk =>
    cases val with
    | str s => simp [hk]
    | int i => simp [hk]
    | bool b => simp [hk]

/-- C9: for the empty input, `PrintSpanTree` writes zero bytes — the output
is the empty string at every recursion budget (and the embedding is total:
no error). -/
theorem c9_empty_input : ∀ fuel : Nat, printSpanTree fuel [] = some "" :=
  fun _ => rfl

/-- C10: when every span has a valid parent id (e.g. a parent cycle), the
root set is empty, so `PrintSpanTree` terminates immediately — at every
recursion budget — and writes zero bytes: no block is ever built. -/
theorem c10_no_roots_no_output (spans : List SpanStub) (_hne : spans ≠ [])
    (hall : ∀ s ∈ spans, sidValid s.parentID = true) (fuel : Nat) :
    printSpanTree fuel spans = some "" := by
  have hroots : rootsOf spans = [] := by
    rw [rootsOf_eq_filter]
    apply List.filter_eq_nil_iff.mpr
    intro s hs
    simp [hall s hs]
  unfold printSpanTree printSpanTreeOrd
  by_cases h0 : spans.length = 0
  · rw [if_pos h0]
  · rw [if_neg h0, hroots, sortSpans_nil]
    rfl

theorem c10_witness : printSpanTree 5 cycleSpans = some "" :=
  c10_no_roots_no_output cycleSpans (by decide) (by decide) 5

end OtelPrinter
